import Mathlib

/-!
# Verification of the MDP engine (src/MDP/mdp.py)

Shallow embedding of the `MDP` class.  Conventions, fixed once here:

* Python floats are modelled as exact rationals `ℚ`.
* Python dicts keyed by states/actions are modelled as total functions
  (`S → ℚ`, `S → A → ℚ`, ...); dict mutation `V[s] = v` becomes
  `Function.update V s v`.  The state/action types of a concrete model
  enumerate exactly the dict keys, so Python `KeyError` paths do not arise.
* The unbounded `while True:` loops of `policy_evaluation`,
  `value_iteration` and `policy_iteration`, and the episode loop of
  `q_learning`, are given an explicit fuel parameter; exhausting the fuel
  returns `none` / an out-of-fuel error and corresponds to the Python loop
  still running.
* `random.choice` / `random.choices` / `random.random() < epsilon` draws are
  driven by an explicit oracle supplying, at each call site, the index of
  the chosen element (taken modulo the list length) resp. the boolean
  outcome of the epsilon test.  Choosing from an empty list, which raises
  `IndexError` in Python, is modelled as an error value.
* Python's `max(iterable, key=f)` keeps the first element and replaces it
  only on a strictly greater key, so the first maximum wins; `pymax` below
  reproduces exactly that fold.  `max()` over an empty iterable raises, so
  `pymax`/`listMax` return `Option`; `bestVal` (the value-only max inside
  `value_iteration`'s sweep) defaults the impossible empty case to 0 and is
  only ever used under an `actions ≠ []` hypothesis.
-/

/-- The data stored by `MDP.__init__` (src/MDP/mdp.py lines 5-11): state list,
action list, transition kernel `P`, reward table `R`, discount `gamma`, and
the terminal-state membership test. -/
structure MDP (S A : Type) where
  states : List S
  actions : List A
  P : S → A → List (ℚ × S)
  R : S → A → ℚ
  gamma : ℚ
  terminal : S → Bool

/-- `MDP.__init__`: stores every argument unchanged; the only computation is
`terminal_states or set()`, defaulting a missing terminal set to empty.
There is no validation of any kind in the constructor. -/
def mkMDP {S A : Type} (states : List S) (actions : List A)
    (transition_probabilities : S → A → List (ℚ × S)) (rewards : S → A → ℚ)
    (gamma : ℚ) (terminal_states : Option (S → Bool)) : MDP S A :=
  { states := states
    actions := actions
    P := transition_probabilities
    R := rewards
    gamma := gamma
    terminal := terminal_states.getD (fun _ => false) }

/-- Modelled from the spec (§3 Data model, §4.1 Model): the transition kernel
is well formed when, for every state/action pair, the listed probabilities
sum to 1 and every successor belongs to the state set.  The source has no
such check; this predicate exists to state what the spec asks of it. -/
def kernelValid {S A : Type} [DecidableEq S] (m : MDP S A) : Prop :=
  ∀ s ∈ m.states, ∀ a ∈ m.actions,
    ((m.P s a).map Prod.fst).sum = 1 ∧ ∀ pr ∈ m.P s a, pr.2 ∈ m.states

/-- Validity assumptions used by the exact policy-improvement theorem:
probabilities sum to 1, are nonnegative, and successors stay inside the
state set. -/
def validModel {S A : Type} (m : MDP S A) : Prop :=
  ∀ s ∈ m.states, ∀ a ∈ m.actions,
    ((m.P s a).map Prod.fst).sum = 1 ∧ ∀ pr ∈ m.P s a, 0 ≤ pr.1 ∧ pr.2 ∈ m.states

/-- The one-step lookahead sum
`sum(prob * (self.R[s][a] + self.gamma * V[next_state]) for prob, next_state in self.P[s][a])`
shared verbatim by all four methods. -/
def qval {S A : Type} (m : MDP S A) (V : S → ℚ) (s : S) (a : A) : ℚ :=
  ((m.P s a).map (fun pr => pr.1 * (m.R s a + m.gamma * V pr.2))).sum

/-- Python `max()` over a plain iterable of numbers: `none` on an empty
iterable (Python raises `ValueError`), else the greatest value. -/
def listMax : List ℚ → Option ℚ
  | [] => none
  | x :: xs => some (xs.foldl max x)

/-- Python `max(iterable, key=f)`: keeps the current best and replaces it only
when the new key is strictly greater, hence the first maximum wins.  `none`
on an empty iterable (Python raises `ValueError`). -/
def pymax {A : Type} (key : A → ℚ) : List A → Option A
  | [] => none
  | x :: xs => some (xs.foldl (fun b y => if key b < key y then y else b) x)

/-- Python `random.choice(l)` / the single draw of `random.choices`: the
oracle supplies `k`, the element index modulo the length; the empty list
(Python `IndexError`) gives `none`. -/
def pyChoice {A : Type} (k : Nat) (l : List A) : Option A :=
  match l with
  | [] => none
  | a :: as => some ((a :: as).get ⟨k % (a :: as).length, Nat.mod_lt _ (Nat.succ_pos _)⟩)

/-- The position in the action list that `pymax` selects: membership, global
maximality, and everything strictly before it has a strictly smaller key
("first max wins"). -/
def isFirstMax {A : Type} (key : A → ℚ) (l : List A) (b : A) : Prop :=
  b ∈ l ∧ (∀ a ∈ l, key a ≤ key b) ∧
    ∃ l1 l2, l = l1 ++ b :: l2 ∧ ∀ a ∈ l1, key a < key b

section Algorithms

variable {S A : Type} [DecidableEq S] [DecidableEq A]

/-- One full sweep of `policy_evaluation`'s `for s in self.states:` loop
(src/MDP/mdp.py lines 17-24): terminal states are skipped, each other state
is overwritten in place with the one-step lookahead under `policy`, and
`delta` accumulates the largest absolute change. -/
def peSweep (m : MDP S A) (policy : S → A) :
    List S → (S → ℚ) → ℚ → ((S → ℚ) × ℚ)
  | [], V, delta => (V, delta)
  | s :: rest, V, delta =>
    if m.terminal s then peSweep m policy rest V delta
    else
      let v := qval m V s (policy s)
      peSweep m policy rest (Function.update V s v) (max delta |V s - v|)

/-- The `while True:` loop of `policy_evaluation`, with fuel.  A sweep whose
`delta` falls below `theta` ends the loop. -/
def peLoop (m : MDP S A) (policy : S → A) (theta : ℚ) :
    Nat → (S → ℚ) → Option (S → ℚ)
  | 0, _ => none
  | fuel + 1, V =>
    match peSweep m policy m.states V 0 with
    | (V', delta) => if delta < theta then some V' else peLoop m policy theta fuel V'

/-- `MDP.policy_evaluation` (src/MDP/mdp.py lines 13-27): start from the
all-zero value function and sweep until `delta < theta`. -/
def policy_evaluation (m : MDP S A) (policy : S → A) (theta : ℚ) (fuel : Nat) :
    Option (S → ℚ) :=
  peLoop m policy theta fuel (fun _ => 0)

/-- The value of `max(sum(...) for a in self.actions)` inside
`value_iteration`'s sweep; the empty-action case (a Python `ValueError`) is
defaulted to 0 and excluded by hypothesis wherever it matters. -/
def bestVal (m : MDP S A) (V : S → ℚ) (s : S) : ℚ :=
  (listMax ((m.actions).map (qval m V s))).getD 0

/-- One full sweep of `value_iteration`'s state loop (src/MDP/mdp.py lines
32-42): terminal states skipped, every other state overwritten in place with
the best one-step lookahead over all actions, `delta` tracking the largest
absolute change. -/
def viSweep (m : MDP S A) : List S → (S → ℚ) → ℚ → ((S → ℚ) × ℚ)
  | [], V, delta => (V, delta)
  | s :: rest, V, delta =>
    if m.terminal s then viSweep m rest V delta
    else
      let v := bestVal m V s
      viSweep m rest (Function.update V s v) (max delta |V s - v|)

/-- The `while True:` loop of `value_iteration`, with fuel. -/
def viLoop (m : MDP S A) (theta : ℚ) : Nat → (S → ℚ) → Option (S → ℚ)
  | 0, _ => none
  | fuel + 1, V =>
    match viSweep m m.states V 0 with
    | (V', delta) => if delta < theta then some V' else viLoop m theta fuel V'

/-- The value function after `n` complete sweeps of `value_iteration`. -/
def viIter (m : MDP S A) (V0 : S → ℚ) : Nat → (S → ℚ)
  | 0 => V0
  | n + 1 => (viSweep m m.states (viIter m V0 n) 0).1

/-- The `delta` produced by the `(n+1)`-st sweep of `value_iteration`. -/
def viDelta (m : MDP S A) (V0 : S → ℚ) (n : Nat) : ℚ :=
  (viSweep m m.states (viIter m V0 n) 0).2

/-- The policy-derivation pass of `value_iteration` (src/MDP/mdp.py lines
45-55): terminal states map to `None`, every other state to
`max(self.actions, key=lambda a: sum(...))`. -/
def viPolicy (m : MDP S A) (V : S → ℚ) : S → Option A := fun s =>
  if m.terminal s then none else pymax (qval m V s) m.actions

/-- `MDP.value_iteration` (src/MDP/mdp.py lines 29-56): sweep to convergence
from zero, then derive the greedy policy in one pass. -/
def value_iteration (m : MDP S A) (theta : ℚ) (fuel : Nat) :
    Option ((S → ℚ) × (S → Option A)) :=
  (viLoop m theta fuel (fun _ => 0)).map (fun V => (V, viPolicy m V))

/-- How a run of `policy_iteration` can fail to produce a result:
`emptyActions` is Python's `IndexError`/`ValueError` from `random.choice` or
`max` on an empty action list; `evalFuel` (resp. `loopFuel`) means the inner
evaluation loop (resp. the outer improvement loop) was still running when
its fuel ran out. -/
inductive PiErr
  | emptyActions
  | evalFuel
  | loopFuel
deriving DecidableEq

/-- The initial-policy comprehension of `policy_iteration` (src/MDP/mdp.py
line 59): a `random.choice(self.actions)` for every non-terminal state, the
oracle `o` providing each draw's index.  The policy core is a total function;
entries at terminal states are never read and the returned policy maps them
to `None` (line 60). -/
def piInit (m : MDP S A) (o : S → Nat) : List S → (S → A) → Except PiErr (S → A)
  | [], policy => .ok policy
  | s :: rest, policy =>
    if m.terminal s then piInit m o rest policy
    else
      match pyChoice (o s) m.actions with
      | none => .error .emptyActions
      | some a => piInit m o rest (Function.update policy s a)

/-- The policy-improvement pass of `policy_iteration` (src/MDP/mdp.py lines
64-75): for every non-terminal state replace the policy entry by
`max(self.actions, key=...)` against the evaluated `V`, and record in the
boolean whether every state kept its old action (`policy_stable`). -/
def piImprove (m : MDP S A) (V : S → ℚ) :
    List S → (S → A) → Bool → Except PiErr ((S → A) × Bool)
  | [], policy, stable => .ok (policy, stable)
  | s :: rest, policy, stable =>
    if m.terminal s then piImprove m V rest policy stable
    else
      match pymax (qval m V s) m.actions with
      | none => .error .emptyActions
      | some b =>
        piImprove m V rest (Function.update policy s b)
          (stable && decide (policy s = b))

/-- One round of `policy_iteration`'s `while True:` body: evaluate the
current policy, then improve it, reporting the evaluated `V`, the improved
policy, and the `policy_stable` flag. -/
def piRound (m : MDP S A) (theta : ℚ) (evalFuel : Nat) (policy : S → A) :
    Except PiErr ((S → ℚ) × (S → A) × Bool) :=
  match policy_evaluation m policy theta evalFuel with
  | none => .error .evalFuel
  | some V =>
    match piImprove m V m.states policy true with
    | .error e => .error e
    | .ok (policy', stable) => .ok (V, policy', stable)

/-- The `while True:` loop of `policy_iteration`, with fuel: exit with the
last evaluated `V` and the (unchanged) policy as soon as a round is stable. -/
def piLoop (m : MDP S A) (theta : ℚ) (evalFuel : Nat) :
    Nat → (S → A) → Except PiErr ((S → ℚ) × (S → A))
  | 0, _ => .error .loopFuel
  | fuel + 1, policy =>
    match piRound m theta evalFuel policy with
    | .error e => .error e
    | .ok (V, policy', stable) =>
      if stable then .ok (V, policy') else piLoop m theta evalFuel fuel policy'

/-- The policy after `n` further rounds, together with that round's `V` and
stability flag: `piSeq 0` is the first round, and each successive index
feeds the improved policy back in.  `piLoop` is characterised in terms of
this sequence. -/
def piSeq (m : MDP S A) (theta : ℚ) (evalFuel : Nat) :
    Nat → (S → A) → Except PiErr ((S → ℚ) × (S → A) × Bool)
  | 0, policy => piRound m theta evalFuel policy
  | n + 1, policy =>
    match piRound m theta evalFuel policy with
    | .error e => .error e
    | .ok (_, policy', _) => piSeq m theta evalFuel n policy'

/-- `MDP.policy_iteration` (src/MDP/mdp.py lines 58-78): random initial
policy on the non-terminal states, `None` on terminal ones, then alternate
evaluation and improvement until stable. -/
def policy_iteration [Inhabited A] (m : MDP S A) (o : S → Nat) (theta : ℚ)
    (evalFuel loopFuel : Nat) : Except PiErr ((S → ℚ) × (S → Option A)) :=
  match piInit m o m.states (fun _ => default) with
  | .error e => .error e
  | .ok policy0 =>
    match piLoop m theta evalFuel loopFuel policy0 with
    | .error e => .error e
    | .ok (V, policy) =>
      .ok (V, fun s => if m.terminal s then none else some (policy s))

/-- `MDP.step` (src/MDP/mdp.py lines 80-87): a terminal state is absorbing
with zero reward, before the kernel or reward table is touched; otherwise
the oracle index `k` selects the sampled entry of `self.P[state][action]`
(`random.choices` weighted draw) and the reward is `self.R[state][action]`.
An empty transition list (Python's `zip(*transitions)` raises) is `none`. -/
def stepO (m : MDP S A) (k : Nat) (state : S) (action : A) : Option (S × ℚ) :=
  if m.terminal state then some (state, 0)
  else
    match pyChoice k (m.P state action) with
    | none => none
    | some pr => some (pr.2, m.R state action)

/-- The random draws a `q_learning` run consumes, one stream per call site:
`start e` indexes the episode-`e` uniform start-state draw, `explore t`
is the outcome of `random.random() < epsilon` at inner step `t`, `actIdx t`
indexes the exploratory `random.choice(self.actions)`, and `succIdx t`
indexes the successor draw inside `self.step`. -/
structure Oracle where
  start : Nat → Nat
  explore : Nat → Bool
  actIdx : Nat → Nat
  succIdx : Nat → Nat

/-- How a run of `q_learning` can fail: `emptyStartStates` is the
`IndexError` of `random.choice` on an empty non-terminal state list,
`emptyActions` the corresponding failure on an empty action list (or `max`
over an empty row), `emptyTransitions` the `zip` failure inside `step`, and
`innerFuel` means an episode's `while` loop was still running when its fuel
ran out. -/
inductive QlErr
  | emptyStartStates
  | emptyActions
  | emptyTransitions
  | innerFuel
deriving DecidableEq

/-- The Q-table initialiser of `q_learning` (src/MDP/mdp.py line 90):
`{s: {a: 0 for a in self.actions} for s in self.states}` — zero at every
(state, action) pair. -/
def qlQ0 : S → A → ℚ := fun _ _ => 0

/-- The in-place tabular update of `q_learning` (src/MDP/mdp.py line 99):
`Q[state][action] += alpha * (reward + gamma * max(Q[next_state].values()) - Q[state][action])`,
with `mq` standing for the already-computed row maximum of the old table.
Only the (state, action) entry changes. -/
def qlearnUpdate (m : MDP S A) (alpha : ℚ) (Q : S → A → ℚ) (state : S)
    (action : A) (reward mq : ℚ) : S → A → ℚ :=
  fun s' a' =>
    if s' = state ∧ a' = action then
      Q state action + alpha * (reward + m.gamma * mq - Q state action)
    else Q s' a'

/-- The action chosen at inner step `t` of `q_learning` (src/MDP/mdp.py
lines 93-96): explore with a uniformly random action, or exploit with
`max(Q[state], key=Q[state].get)` (dict iteration order is the action
insertion order, so this is the first-max over `self.actions`). -/
def qlAction (m : MDP S A) (o : Oracle) (t : Nat) (Q : S → A → ℚ) (state : S) :
    Option A :=
  if o.explore t then pyChoice (o.actIdx t) m.actions
  else pymax (Q state) m.actions

/-- The `while state not in self.terminal_states:` loop of one `q_learning`
episode (src/MDP/mdp.py lines 92-100), with fuel; `t` counts inner steps
across the whole run to index the oracle streams.  Returns the updated table
and the advanced step counter. -/
def qlInner (m : MDP S A) (o : Oracle) (alpha : ℚ) :
    Nat → Nat → S → (S → A → ℚ) → Except QlErr ((S → A → ℚ) × Nat)
  | 0, _, _, _ => .error .innerFuel
  | fuel + 1, t, state, Q =>
    if m.terminal state then .ok (Q, t)
    else
      match qlAction m o t Q state with
      | none => .error .emptyActions
      | some action =>
        match stepO m (o.succIdx t) state action with
        | none => .error .emptyTransitions
        | some (next_state, reward) =>
          match listMax (m.actions.map (Q next_state)) with
          | none => .error .emptyActions
          | some mq =>
            qlInner m o alpha fuel (t + 1) next_state
              (qlearnUpdate m alpha Q state action reward mq)

/-- The `for _ in range(episodes):` loop of `q_learning` (src/MDP/mdp.py
lines 91-100): each episode draws a uniformly random non-terminal start
state (an empty candidate list raises) and runs the inner loop. -/
def qlEpisodes (m : MDP S A) (o : Oracle) (alpha : ℚ) (innerFuel : Nat) :
    Nat → Nat → Nat → (S → A → ℚ) → Except QlErr ((S → A → ℚ) × Nat)
  | 0, _, t, Q => .ok (Q, t)
  | ep + 1, epIdx, t, Q =>
    match pyChoice (o.start epIdx) (m.states.filter (fun s => !m.terminal s)) with
    | none => .error .emptyStartStates
    | some state =>
      match qlInner m o alpha innerFuel t state Q with
      | .error e => .error e
      | .ok (Q', t') => qlEpisodes m o alpha innerFuel ep (epIdx + 1) t' Q'

/-- `MDP.q_learning` (src/MDP/mdp.py lines 89-102): zero-initialised
Q-table, `episodes` episodes of epsilon-greedy simulated interaction, and
the final greedy policy (`None` at terminal states).  `epsilon` enters only
through the oracle's `explore` stream. -/
def q_learning (m : MDP S A) (o : Oracle) (episodes : Nat) (alpha : ℚ)
    (innerFuel : Nat) : Except QlErr ((S → A → ℚ) × (S → Option A)) :=
  match qlEpisodes m o alpha innerFuel episodes 0 0 qlQ0 with
  | .error e => .error e
  | .ok (Q, _) =>
    .ok (Q, fun s => if m.terminal s then none else pymax (Q s) m.actions)

/-- Exact-fixed-point predicate for a policy's value function: what
`policy_evaluation` converges to as `theta → 0`.  Terminal states carry 0,
every other state its one-step lookahead under the policy. -/
def isPolicyFix (m : MDP S A) (policy : S → A) (V : S → ℚ) : Prop :=
  ∀ s ∈ m.states, V s = if m.terminal s then 0 else qval m V s (policy s)

end Algorithms

/-! ## Concrete instances

Small two-state, two-action models used to witness the theorems and to
refute the claims that fail.  `St.v` is the terminal state where one
exists. -/

/-- States of the concrete models. -/
inductive St
  | u
  | v
deriving DecidableEq

/-- Actions of the concrete models. -/
inductive Act
  | a
  | b
deriving DecidableEq

instance : Inhabited Act := ⟨Act.a⟩

/-- A well-formed model: from `u` both actions jump to the terminal state
`v`; action `a` pays 1, action `b` pays 0. -/
def demoM : MDP St Act where
  states := [St.u, St.v]
  actions := [Act.a, Act.b]
  P := fun _ _ => [(1, St.v)]
  R := fun s x =>
    match s, x with
    | St.u, Act.a => 1
    | _, _ => 0
  gamma := 1/2
  terminal := fun s =>
    match s with
    | St.v => true
    | St.u => false

/-- A malformed model: the transition probabilities of every `u` row sum to
9/10, not 1. -/
def badM : MDP St Act where
  states := [St.u, St.v]
  actions := [Act.a, Act.b]
  P := fun s _ =>
    match s with
    | St.u => [(9/10, St.v)]
    | St.v => [(1, St.v)]
  R := fun s x =>
    match s, x with
    | St.u, Act.a => 1
    | _, _ => 0
  gamma := 1/2
  terminal := fun s =>
    match s with
    | St.v => true
    | St.u => false

/-- A well-formed model with no terminal state on which `policy_iteration`
with `theta = 2` cycles forever: at `u` action `a` (self-loop, reward 1)
always wins, while at `v` the one-sweep evaluated values make the greedy
choice alternate between `a` (jump to `u`, reward 0) and `b` (self-loop,
reward 1/5). -/
def cycM : MDP St Act where
  states := [St.u, St.v]
  actions := [Act.a, Act.b]
  P := fun s x =>
    match s, x with
    | St.u, _ => [(1, St.u)]
    | St.v, Act.a => [(1, St.u)]
    | St.v, Act.b => [(1, St.v)]
  R := fun s x =>
    match s, x with
    | St.u, Act.a => 1
    | St.u, Act.b => -100
    | St.v, Act.a => 0
    | St.v, Act.b => 1/5
  gamma := 9/10
  terminal := fun _ => false

/-- A model in which every state is terminal, so `q_learning` has no
start state to sample. -/
def allTermM : MDP St Act where
  states := [St.u, St.v]
  actions := [Act.a, Act.b]
  P := fun _ _ => [(1, St.v)]
  R := fun _ _ => 0
  gamma := 1/2
  terminal := fun _ => true

/-- The deterministic oracle used by concrete runs: every random draw takes
index 0 and the epsilon test always exploits. -/
def demoOracle : Oracle where
  start := fun _ => 0
  explore := fun _ => false
  actIdx := fun _ => 0
  succIdx := fun _ => 0

/-- The value function `value_iteration`/`policy_evaluation` reach on
`demoM`: 1 at `u`, 0 at the terminal `v`. -/
def demoV : St → ℚ := fun s =>
  match s with
  | St.u => 1
  | St.v => 0

/-- The all-`a` policy core on the concrete state space. -/
def demoPi : St → Act := fun _ => Act.a

/-- The policy both planners derive on `demoM`: `a` at `u`, `None` at the
terminal `v`. -/
def demoPol : St → Option Act := fun s =>
  match s with
  | St.u => some Act.a
  | St.v => none

/-- The Q-table after the single recorded episode of `q_learning` on
`demoM` with `alpha = 1/2`. -/
def demoQ : St → Act → ℚ := fun s x =>
  match s, x with
  | St.u, Act.a => 1/2
  | _, _ => 0

/-- The value function `value_iteration` reaches on the malformed `badM`:
its probability mass 9/10 is consumed as given. -/
def badV : St → ℚ := fun s =>
  match s with
  | St.u => 9/10
  | St.v => 0

/-- Both-`a` and `u ↦ a, v ↦ b`: the two policies `policy_iteration`
alternates between forever on `cycM`. -/
def cycPi0 : St → Act := fun _ => Act.a

/-- The second policy of the `cycM` cycle. -/
def cycPi1 : St → Act := fun s =>
  match s with
  | St.u => Act.a
  | St.v => Act.b

/-- The value function `policy_evaluation` (with `theta = 2`, one sweep)
reports for `cycPi0` on `cycM`. -/
def cycV0 : St → ℚ := fun s =>
  match s with
  | St.u => 1
  | St.v => 9/10

/-- The value function `policy_evaluation` (with `theta = 2`, one sweep)
reports for `cycPi1` on `cycM`: at `v` it regresses from 9/10 to 1/5. -/
def cycV1 : St → ℚ := fun s =>
  match s with
  | St.u => 1
  | St.v => 1/5

/-! ## Evaluation lemmas for the concrete runs -/

theorem St_vu_false : (St.v = St.u) = False := eq_false (by decide)

theorem St_uv_false : (St.u = St.v) = False := eq_false (by decide)


theorem demo_viSweep0 : viSweep demoM demoM.states (fun _ => 0) 0 = (demoV, 1) := by
  refine Prod.ext ?_ ?_
  · funext s
    cases s <;> norm_num [viSweep, demoM, demoV, bestVal, listMax, qval, Function.update] <;> decide
  · norm_num [viSweep, demoM, bestVal, listMax, qval, Function.update]

theorem demo_viSweep1 : viSweep demoM demoM.states demoV 0 = (demoV, 0) := by
  refine Prod.ext ?_ ?_
  · funext s
    cases s <;> norm_num [viSweep, demoM, demoV, bestVal, listMax, qval, Function.update] <;> decide
  · norm_num [viSweep, demoM, demoV, bestVal, listMax, qval, Function.update]

theorem demo_viLoop : viLoop demoM 1 3 (fun _ => 0) = some demoV := by
  rw [viLoop, demo_viSweep0]
  norm_num
  rw [viLoop, demo_viSweep1]
  norm_num

theorem demo_viPolicy : viPolicy demoM demoV = demoPol := by
  funext s
  cases s <;> norm_num [viPolicy, pymax, demoM, demoV, demoPol, qval]

theorem demo_value_iteration : value_iteration demoM 1 3 = some (demoV, demoPol) := by
  rw [value_iteration, demo_viLoop]
  simp [demo_viPolicy]

theorem demo_peSweep0 :
    peSweep demoM demoPi demoM.states (fun _ => 0) 0 = (demoV, 1) := by
  refine Prod.ext ?_ ?_
  · funext s
    cases s <;> norm_num [peSweep, demoM, demoPi, demoV, qval, Function.update] <;> decide
  · norm_num [peSweep, demoM, demoPi, qval, Function.update]

theorem demo_peSweep1 : peSweep demoM demoPi demoM.states demoV 0 = (demoV, 0) := by
  refine Prod.ext ?_ ?_
  · funext s
    cases s <;> norm_num [peSweep, demoM, demoPi, demoV, qval, Function.update] <;> decide
  · norm_num [peSweep, demoM, demoPi, demoV, qval, Function.update]

theorem demo_pe : policy_evaluation demoM demoPi 1 3 = some demoV := by
  rw [policy_evaluation, peLoop, demo_peSweep0]
  norm_num
  rw [peLoop, demo_peSweep1]
  norm_num

theorem demo_piInit :
    piInit demoM (fun _ => 0) demoM.states (fun _ => default) = .ok demoPi := by
  norm_num [piInit, demoM, pyChoice]
  funext s
  cases s <;> rfl

theorem demo_piImprove :
    piImprove demoM demoV demoM.states demoPi true = .ok (demoPi, true) := by
  norm_num [piImprove, demoM, demoV, demoPi, pymax, qval, Function.update]

theorem demo_piRound : piRound demoM 1 3 demoPi = .ok (demoV, demoPi, true) := by
  rw [piRound, demo_pe]
  simp [demo_piImprove]

theorem demo_piLoop : piLoop demoM 1 3 2 demoPi = .ok (demoV, demoPi) := by
  rw [piLoop, demo_piRound]
  rfl

theorem bad_viSweep : viSweep badM badM.states (fun _ => 0) 0 = (badV, 9/10) := by
  refine Prod.ext ?_ ?_
  · funext s
    cases s <;> norm_num [viSweep, badM, badV, bestVal, listMax, qval, Function.update] <;> decide
  · norm_num [viSweep, badM, bestVal, listMax, qval, Function.update]

theorem bad_viLoop : viLoop badM 1 2 (fun _ => 0) = some badV := by
  rw [viLoop, bad_viSweep]
  norm_num

theorem bad_viPolicy : viPolicy badM badV = demoPol := by
  funext s
  cases s <;> norm_num [viPolicy, pymax, badM, badV, demoPol, qval]

theorem bad_value_iteration : value_iteration badM 1 2 = some (badV, demoPol) := by
  rw [value_iteration, bad_viLoop]
  simp [bad_viPolicy]

theorem bad_not_kernelValid : ¬ kernelValid badM := by
  intro h
  have hu : St.u ∈ badM.states := by decide
  have ha : Act.a ∈ badM.actions := by decide
  have := (h St.u hu Act.a ha).1
  norm_num [badM] at this

theorem cyc_peSweep0 :
    peSweep cycM cycPi0 cycM.states (fun _ => 0) 0 = (cycV0, 1) := by
  refine Prod.ext ?_ ?_
  · funext s
    cases s <;> norm_num [peSweep, cycM, cycPi0, cycV0, qval, Function.update] <;> decide
  · norm_num [peSweep, cycM, cycPi0, qval, Function.update, St_vu_false, St_uv_false, abs_of_nonneg]

theorem cyc_pe0 : policy_evaluation cycM cycPi0 2 3 = some cycV0 := by
  rw [policy_evaluation, peLoop, cyc_peSweep0]
  norm_num

theorem cyc_improve0 :
    piImprove cycM cycV0 cycM.states cycPi0 true = .ok (cycPi1, false) := by
  norm_num [piImprove, cycM, cycV0, cycPi0, pymax, qval, Function.update]
  constructor
  · funext s
    cases s <;> norm_num [Function.update, cycPi1] <;> decide
  · decide

theorem cyc_round0 : piRound cycM 2 3 cycPi0 = .ok (cycV0, cycPi1, false) := by
  rw [piRound, cyc_pe0]
  simp [cyc_improve0]

theorem cyc_peSweep1 :
    peSweep cycM cycPi1 cycM.states (fun _ => 0) 0 = (cycV1, 1) := by
  refine Prod.ext ?_ ?_
  · funext s
    cases s <;> norm_num [peSweep, cycM, cycPi1, cycV1, qval, Function.update] <;> decide
  · norm_num [peSweep, cycM, cycPi1, qval, Function.update, St_vu_false, St_uv_false, abs_of_nonneg]

theorem cyc_pe1 : policy_evaluation cycM cycPi1 2 3 = some cycV1 := by
  rw [policy_evaluation, peLoop, cyc_peSweep1]
  norm_num

theorem cyc_improve1 :
    piImprove cycM cycV1 cycM.states cycPi1 true = .ok (cycPi0, false) := by
  norm_num [piImprove, cycM, cycV1, cycPi1, pymax, qval, Function.update]
  constructor
  · funext s
    cases s <;> norm_num [Function.update, cycPi0] <;> decide
  · decide

theorem cyc_round1 : piRound cycM 2 3 cycPi1 = .ok (cycV1, cycPi0, false) := by
  rw [piRound, cyc_pe1]
  simp [cyc_improve1]

theorem cyc_piLoop5 : piLoop cycM 2 3 5 cycPi0 = .error .loopFuel := by
  rw [piLoop, cyc_round0]
  simp only [Bool.false_eq_true, if_false]
  rw [piLoop, cyc_round1]
  simp only [Bool.false_eq_true, if_false]
  rw [piLoop, cyc_round0]
  simp only [Bool.false_eq_true, if_false]
  rw [piLoop, cyc_round1]
  simp only [Bool.false_eq_true, if_false]
  rw [piLoop, cyc_round0]
  simp only [Bool.false_eq_true, if_false]
  rw [piLoop]

theorem cyc_piInit :
    piInit cycM (fun _ => 0) cycM.states (fun _ => default) = .ok cycPi0 := by
  norm_num [piInit, cycM, pyChoice]
  funext s
  cases s <;> rfl

theorem cyc_policy_iteration :
    policy_iteration cycM (fun _ => 0) 2 3 5 = .error .loopFuel := by
  rw [policy_iteration, cyc_piInit]
  simp only [cyc_piLoop5]

theorem cyc_piSeq0 : piSeq cycM 2 3 0 cycPi0 = .ok (cycV0, cycPi1, false) := by
  rw [piSeq, cyc_round0]

theorem cyc_piSeq1 : piSeq cycM 2 3 1 cycPi0 = .ok (cycV1, cycPi0, false) := by
  rw [piSeq.eq_def]
  simp only [cyc_round0]
  rw [piSeq, cyc_round1]

theorem demo_term_u : demoM.terminal St.u = false := rfl

theorem demo_term_v : demoM.terminal St.v = true := rfl

theorem demo_qlUpd : qlearnUpdate demoM (1/2) qlQ0 St.u Act.a 1 0 = demoQ := by
  funext s x
  cases s <;> cases x <;> norm_num [qlearnUpdate, demoM, qlQ0, demoQ] <;> decide

theorem demo_qlAction : qlAction demoM demoOracle 0 qlQ0 St.u = some Act.a := by
  norm_num [qlAction, demoOracle, pymax, qlQ0, demoM]

theorem demo_step : stepO demoM (demoOracle.succIdx 0) St.u Act.a = some (St.v, 1) := by
  norm_num [stepO, demoM, demoOracle, pyChoice]

theorem demo_listMax : listMax (demoM.actions.map (qlQ0 St.v)) = some 0 := by
  norm_num [listMax, demoM, qlQ0]

theorem demo_qlInner :
    qlInner demoM demoOracle (1/2) 3 0 St.u qlQ0 = .ok (demoQ, 1) := by
  rw [qlInner.eq_def]
  simp only [demo_term_u, Bool.false_eq_true, if_false, demo_qlAction, demo_step,
    demo_listMax, demo_qlUpd]
  rw [qlInner.eq_def]
  simp only [demo_term_v, if_true]

theorem demo_startChoice :
    pyChoice (demoOracle.start 0) (demoM.states.filter (fun s => !demoM.terminal s))
      = some St.u := by
  decide

theorem demo_qlEpisodes :
    qlEpisodes demoM demoOracle (1/2) 3 1 0 0 qlQ0 = .ok (demoQ, 1) := by
  rw [qlEpisodes.eq_def]
  simp only [qlEpisodes, demo_startChoice, demo_qlInner]

theorem demo_q_learning :
    q_learning demoM demoOracle 1 (1/2) 3 = .ok (demoQ, demoPol) := by
  rw [q_learning, demo_qlEpisodes]
  have h : (fun s => if demoM.terminal s = true then none else pymax (demoQ s) demoM.actions)
      = demoPol := by
    funext s
    cases s <;> norm_num [demoM, demoQ, demoPol, pymax]
  simp only [h]

theorem demo_policy_iteration :
    policy_iteration demoM (fun _ => 0) 1 3 2 = .ok (demoV, demoPol) := by
  rw [policy_iteration, demo_piInit]
  simp only [demo_piLoop]
  have h : (fun s => if demoM.terminal s = true then none else some (demoPi s)) = demoPol := by
    funext s
    cases s <;> rfl
  rw [h]

/-! ## Generic facts about the embedded helpers -/

theorem foldl_pymax_firstMax {A : Type} (key : A → ℚ) :
    ∀ (xs : List A) (b : A),
      isFirstMax key (b :: xs) (xs.foldl (fun c y => if key c < key y then y else c) b) := by
  intro xs
  induction xs with
  | nil =>
    intro b
    exact ⟨List.mem_singleton_self b, by
      intro a ha
      rw [List.mem_singleton] at ha
      exact ha ▸ le_refl _, [], [], rfl, by intro a ha; cases ha⟩
  | cons y ys ih =>
    intro b
    by_cases hlt : key b < key y
    · rw [List.foldl_cons, if_pos hlt]
      obtain ⟨hmem, hmax, l1, l2, hsplit, hfront⟩ := ih y
      refine ⟨List.mem_cons_of_mem b hmem, ?_, b :: l1, l2, by rw [List.cons_append, ← hsplit], ?_⟩
      · intro a ha
        rcases List.mem_cons.mp ha with h | h
        · exact h ▸ le_of_lt (lt_of_lt_of_le hlt (hmax y (List.mem_cons_self y ys)))
        · exact hmax a h
      · intro a ha
        rcases List.mem_cons.mp ha with h | h
        · exact h ▸ lt_of_lt_of_le hlt (hmax y (List.mem_cons_self y ys))
        · exact hfront a h
    · rw [List.foldl_cons, if_neg hlt]
      obtain ⟨hmem, hmax, l1, l2, hsplit, hfront⟩ := ih b
      have hyb : key y ≤ key b := le_of_not_lt hlt
      have hbr : key b ≤ key (ys.foldl (fun c z => if key c < key z then z else c) b) :=
        hmax b (List.mem_cons_self b ys)
      refine ⟨?_, ?_, ?_⟩
      · rcases List.mem_cons.mp hmem with h | h
        · rw [h]
          exact List.mem_cons_self b (y :: ys)
        · exact List.mem_cons_of_mem b (List.mem_cons_of_mem y h)
      · intro a ha
        rcases List.mem_cons.mp ha with h | h
        · rw [h]
          exact hbr
        · rcases List.mem_cons.mp h with h' | h'
          · rw [h']
            exact le_trans hyb hbr
          · exact hmax a (List.mem_cons_of_mem b h')
      · cases l1 with
        | nil =>
          have hr : b = ys.foldl (fun c z => if key c < key z then z else c) b :=
            (List.cons.injEq _ _ _ _).mp hsplit |>.1
          refine ⟨[], y :: ys, ?_, by intro a ha; cases ha⟩
          rw [← hr]
          rfl
        | cons c l1' =>
          have hinj := (List.cons.injEq _ _ _ _).mp hsplit
          have hcb : c = b := hinj.1.symm
          have hys : ys = l1' ++ ys.foldl (fun c z => if key c < key z then z else c) b :: l2 :=
            hinj.2
          have hbfront : key b < key (ys.foldl (fun c z => if key c < key z then z else c) b) := by
            have hc := hfront c (List.mem_cons_self c l1')
            rw [hcb] at hc
            exact hc
          refine ⟨b :: y :: l1', l2, ?_, ?_⟩
          · rw [List.cons_append, List.cons_append, ← hys]
          · intro a ha
            rcases List.mem_cons.mp ha with h | h
            · rw [h]
              exact hbfront
            · rcases List.mem_cons.mp h with h' | h'
              · rw [h']
                exact lt_of_le_of_lt hyb hbfront
              · have ha' : a ∈ c :: l1' := by
                  rw [hcb]
                  exact List.mem_cons_of_mem b h'
                exact hfront a ha'

theorem pymax_spec {A : Type} (key : A → ℚ) (l : List A) (h : l ≠ []) :
    ∃ b, pymax key l = some b ∧ isFirstMax key l b := by
  cases l with
  | nil => exact absurd rfl h
  | cons x xs =>
    exact ⟨xs.foldl (fun c y => if key c < key y then y else c) x, rfl,
      foldl_pymax_firstMax key xs x⟩

theorem foldl_max_mem : ∀ (xs : List ℚ) (b : ℚ), xs.foldl max b ∈ b :: xs := by
  intro xs
  induction xs with
  | nil => intro b; exact List.mem_singleton_self b
  | cons y ys ih =>
    intro b
    rw [List.foldl_cons]
    rcases max_choice b y with hm | hm <;> rw [hm]
    · rcases List.mem_cons.mp (ih b) with h | h
      · rw [h]
        exact List.mem_cons_self b (y :: ys)
      · exact List.mem_cons_of_mem b (List.mem_cons_of_mem y h)
    · rcases List.mem_cons.mp (ih y) with h | h
      · rw [h]
        exact List.mem_cons_of_mem b (List.mem_cons_self y ys)
      · exact List.mem_cons_of_mem b (List.mem_cons_of_mem y h)

theorem foldl_max_le : ∀ (xs : List ℚ) (b : ℚ),
    b ≤ xs.foldl max b ∧ ∀ x ∈ xs, x ≤ xs.foldl max b := by
  intro xs
  induction xs with
  | nil =>
    intro b
    exact ⟨le_refl b, by intro x hx; cases hx⟩
  | cons y ys ih =>
    intro b
    rw [List.foldl_cons]
    obtain ⟨h1, h2⟩ := ih (max b y)
    refine ⟨le_trans (le_max_left b y) h1, ?_⟩
    intro x hx
    rcases List.mem_cons.mp hx with h | h
    · rw [h]
      exact le_trans (le_max_right b y) h1
    · exact h2 x h

theorem listMax_spec (l : List ℚ) (q : ℚ) (h : listMax l = some q) :
    q ∈ l ∧ ∀ x ∈ l, x ≤ q := by
  cases l with
  | nil => cases h
  | cons x xs =>
    have hq : q = xs.foldl max x := by
      have := h
      rw [listMax] at this
      exact (Option.some.injEq _ _).mp this |>.symm
    subst hq
    exact ⟨foldl_max_mem xs x, by
      intro z hz
      rcases List.mem_cons.mp hz with h' | h'
      · rw [h']
        exact (foldl_max_le xs x).1
      · exact (foldl_max_le xs x).2 z h'⟩

theorem exists_min_on {S : Type} (f : S → ℚ) :
    ∀ (l : List S), l ≠ [] → ∃ u ∈ l, ∀ w ∈ l, f u ≤ f w := by
  intro l
  induction l with
  | nil => intro h; exact absurd rfl h
  | cons x xs ih =>
    intro _
    cases xs with
    | nil =>
      refine ⟨x, List.mem_singleton_self x, ?_⟩
      intro w hw
      rw [List.mem_singleton] at hw
      rw [hw]
    | cons y ys =>
      obtain ⟨u, hu, hmin⟩ := ih (by simp)
      by_cases hx : f x ≤ f u
      · refine ⟨x, List.mem_cons_self x (y :: ys), ?_⟩
        intro w hw
        rcases List.mem_cons.mp hw with h | h
        · rw [h]
        · exact le_trans hx (hmin w h)
      · refine ⟨u, List.mem_cons_of_mem x hu, ?_⟩
        intro w hw
        rcases List.mem_cons.mp hw with h | h
        · rw [h]
          exact le_of_not_le hx
        · exact hmin w h

theorem qval_sub {S A : Type} (m : MDP S A) (V V' : S → ℚ) (s : S) (a : A) :
    qval m V' s a - qval m V s a
      = m.gamma * ((m.P s a).map (fun pr => pr.1 * (V' pr.2 - V pr.2))).sum := by
  rw [qval, qval]
  induction m.P s a with
  | nil => simp
  | cons pr rest ih =>
    rw [List.map_cons, List.map_cons, List.map_cons, List.sum_cons, List.sum_cons, List.sum_cons]
    linear_combination ih

theorem sum_weight_lb {S : Type} (D : S → ℚ) (d : ℚ) :
    ∀ (l : List (ℚ × S)), (∀ pr ∈ l, 0 ≤ pr.1 ∧ d ≤ D pr.2) →
      d * ((l.map Prod.fst).sum) ≤ (l.map (fun pr => pr.1 * D pr.2)).sum := by
  intro l
  induction l with
  | nil => intro _; simp
  | cons pr rest ih =>
    intro h
    rw [List.map_cons, List.map_cons, List.sum_cons, List.sum_cons, mul_add]
    obtain ⟨hp, hd⟩ := h pr (List.mem_cons_self pr rest)
    have h1 : d * pr.1 ≤ pr.1 * D pr.2 := by
      rw [mul_comm]
      exact mul_le_mul_of_nonneg_left hd hp
    have h2 := ih (fun q hq => h q (List.mem_cons_of_mem pr hq))
    linarith

theorem viSweep_untouched {S A : Type} [DecidableEq S] [DecidableEq A] (m : MDP S A) (s : S) :
    ∀ (l : List S) (V : S → ℚ) (d : ℚ), s ∉ l → (viSweep m l V d).1 s = V s := by
  intro l
  induction l with
  | nil => intro V d _; rfl
  | cons t rest ih =>
    intro V d hs
    have hst : s ∉ rest := fun h => hs (List.mem_cons_of_mem t h)
    have hne : s ≠ t := fun h => hs (h ▸ List.mem_cons_self t rest)
    simp only [viSweep]
    by_cases ht : m.terminal t = true
    · rw [if_pos ht]
      exact ih V d hst
    · rw [if_neg ht, ih _ _ hst]
      exact Function.update_noteq hne _ _

theorem viSweep_terminal {S A : Type} [DecidableEq S] [DecidableEq A] (m : MDP S A) (s : S)
    (hterm : m.terminal s = true) :
    ∀ (l : List S) (V : S → ℚ) (d : ℚ), (viSweep m l V d).1 s = V s := by
  intro l
  induction l with
  | nil => intro V d; rfl
  | cons t rest ih =>
    intro V d
    simp only [viSweep]
    by_cases ht : m.terminal t = true
    · rw [if_pos ht]
      exact ih V d
    · have hne : s ≠ t := by
        intro h
        rw [h] at hterm
        exact ht hterm
      rw [if_neg ht, ih _ _]
      exact Function.update_noteq hne _ _

theorem viSweep_append {S A : Type} [DecidableEq S] [DecidableEq A] (m : MDP S A) :
    ∀ (l1 l2 : List S) (V : S → ℚ) (d : ℚ),
      viSweep m (l1 ++ l2) V d
        = viSweep m l2 (viSweep m l1 V d).1 (viSweep m l1 V d).2 := by
  intro l1
  induction l1 with
  | nil => intro l2 V d; rfl
  | cons t rest ih =>
    intro l2 V d
    rw [List.cons_append]
    simp only [viSweep]
    by_cases ht : m.terminal t = true
    · rw [if_pos ht, if_pos ht]
      exact ih l2 V d
    · rw [if_neg ht, if_neg ht]
      exact ih l2 _ _

theorem viSweep_value {S A : Type} [DecidableEq S] [DecidableEq A] (m : MDP S A)
    (l1 l2 : List S) (s : S) (V : S → ℚ) (d : ℚ)
    (hterm : m.terminal s = false) (h2 : s ∉ l2) :
    (viSweep m (l1 ++ s :: l2) V d).1 s = bestVal m ((viSweep m l1 V d).1) s := by
  rw [viSweep_append]
  simp only [viSweep]
  rw [if_neg (by rw [hterm]; intro h; cases h)]
  rw [viSweep_untouched m s l2 _ _ h2]
  exact Function.update_same _ _ _

theorem viLoop_const_on_terminal {S A : Type} [DecidableEq S] [DecidableEq A] (m : MDP S A)
    (theta : ℚ) (s : S) (hterm : m.terminal s = true) :
    ∀ (fuel : Nat) (V W : S → ℚ), viLoop m theta fuel V = some W → W s = V s := by
  intro fuel
  induction fuel with
  | zero => intro V W h; cases h
  | succ fuel ih =>
    intro V W h
    simp only [viLoop] at h
    split at h
    · have hW : W = (viSweep m m.states V 0).1 := ((Option.some.injEq _ _).mp h).symm
      rw [hW]
      exact viSweep_terminal m s hterm _ _ _
    · rw [ih _ _ h]
      exact viSweep_terminal m s hterm _ _ _

theorem peSweep_untouched {S A : Type} [DecidableEq S] [DecidableEq A] (m : MDP S A)
    (policy : S → A) (s : S) :
    ∀ (l : List S) (V : S → ℚ) (d : ℚ), s ∉ l → (peSweep m policy l V d).1 s = V s := by
  intro l
  induction l with
  | nil => intro V d _; rfl
  | cons t rest ih =>
    intro V d hs
    have hst : s ∉ rest := fun h => hs (List.mem_cons_of_mem t h)
    have hne : s ≠ t := fun h => hs (h ▸ List.mem_cons_self t rest)
    simp only [peSweep]
    by_cases ht : m.terminal t = true
    · rw [if_pos ht]
      exact ih V d hst
    · rw [if_neg ht, ih _ _ hst]
      exact Function.update_noteq hne _ _

theorem peSweep_terminal {S A : Type} [DecidableEq S] [DecidableEq A] (m : MDP S A)
    (policy : S → A) (s : S) (hterm : m.terminal s = true) :
    ∀ (l : List S) (V : S → ℚ) (d : ℚ), (peSweep m policy l V d).1 s = V s := by
  intro l
  induction l with
  | nil => intro V d; rfl
  | cons t rest ih =>
    intro V d
    simp only [peSweep]
    by_cases ht : m.terminal t = true
    · rw [if_pos ht]
      exact ih V d
    · have hne : s ≠ t := by
        intro h
        rw [h] at hterm
        exact ht hterm
      rw [if_neg ht, ih _ _]
      exact Function.update_noteq hne _ _

theorem peLoop_const_on_terminal {S A : Type} [DecidableEq S] [DecidableEq A] (m : MDP S A)
    (policy : S → A) (theta : ℚ) (s : S) (hterm : m.terminal s = true) :
    ∀ (fuel : Nat) (V W : S → ℚ), peLoop m policy theta fuel V = some W → W s = V s := by
  intro fuel
  induction fuel with
  | zero => intro V W h; cases h
  | succ fuel ih =>
    intro V W h
    simp only [peLoop] at h
    split at h
    · have hW : W = (peSweep m policy m.states V 0).1 := ((Option.some.injEq _ _).mp h).symm
      rw [hW]
      exact peSweep_terminal m policy s hterm _ _ _
    · rw [ih _ _ h]
      exact peSweep_terminal m policy s hterm _ _ _

theorem policy_evaluation_terminal_zero {S A : Type} [DecidableEq S] [DecidableEq A]
    (m : MDP S A) (policy : S → A) (theta : ℚ) (fuel : Nat) (V : S → ℚ) (s : S)
    (hterm : m.terminal s = true) (h : policy_evaluation m policy theta fuel = some V) :
    V s = 0 :=
  peLoop_const_on_terminal m policy theta s hterm fuel _ V h

theorem bestVal_spec {S A : Type} [DecidableEq S] [DecidableEq A] (m : MDP S A)
    (V : S → ℚ) (s : S) (hact : m.actions ≠ []) :
    (∀ a ∈ m.actions, qval m V s a ≤ bestVal m V s)
      ∧ ∃ a ∈ m.actions, bestVal m V s = qval m V s a := by
  have hmap : (m.actions.map (qval m V s)) ≠ [] := by
    intro h
    exact hact (List.map_eq_nil.mp h)
  obtain ⟨x, xs, hxs⟩ := List.exists_cons_of_ne_nil hmap
  have hsome : listMax (m.actions.map (qval m V s)) = some (xs.foldl max x) := by
    rw [hxs, listMax]
  obtain ⟨hmem, hle⟩ := listMax_spec _ _ hsome
  have hbv : bestVal m V s = xs.foldl max x := by
    rw [bestVal, hsome, Option.getD_some]
  constructor
  · intro a ha
    rw [hbv]
    exact hle _ (List.mem_map_of_mem _ ha)
  · obtain ⟨a, ha, hqa⟩ := List.mem_map.mp hmem
    exact ⟨a, ha, by rw [hbv, hqa]⟩

theorem viIter_shift {S A : Type} [DecidableEq S] [DecidableEq A] (m : MDP S A) (V0 : S → ℚ) :
    ∀ n : Nat, viIter m ((viSweep m m.states V0 0).1) n = viIter m V0 (n + 1) := by
  intro n
  induction n with
  | zero => rfl
  | succ n ih =>
    show (viSweep m m.states (viIter m ((viSweep m m.states V0 0).1) n) 0).1
      = (viSweep m m.states (viIter m V0 (n + 1)) 0).1
    rw [ih]

theorem viDelta_shift {S A : Type} [DecidableEq S] [DecidableEq A] (m : MDP S A) (V0 : S → ℚ)
    (n : Nat) : viDelta m ((viSweep m m.states V0 0).1) n = viDelta m V0 (n + 1) := by
  rw [viDelta, viDelta, viIter_shift]

theorem viLoop_iff {S A : Type} [DecidableEq S] [DecidableEq A] (m : MDP S A) (theta : ℚ) :
    ∀ (fuel : Nat) (V0 W : S → ℚ),
      viLoop m theta fuel V0 = some W ↔
        ∃ n < fuel, (∀ k < n, theta ≤ viDelta m V0 k) ∧ viDelta m V0 n < theta
          ∧ W = viIter m V0 (n + 1) := by
  intro fuel
  induction fuel with
  | zero =>
    intro V0 W
    constructor
    · intro h
      cases h
    · intro ⟨n, hn, _⟩
      cases hn
  | succ fuel ih =>
    intro V0 W
    have hd0 : (viSweep m m.states V0 0).2 = viDelta m V0 0 := rfl
    have hi1 : (viSweep m m.states V0 0).1 = viIter m V0 1 := rfl
    constructor
    · intro h
      simp only [viLoop] at h
      split at h
      · refine ⟨0, Nat.succ_pos fuel, ?_, ?_, ?_⟩
        · intro k hk
          cases hk
        · rw [← hd0]
          assumption
        · rw [← hi1]
          exact ((Option.some.injEq _ _).mp h).symm
      · obtain ⟨n, hn, hks, hdn, hW⟩ := (ih _ W).mp h
        refine ⟨n + 1, Nat.succ_lt_succ hn, ?_, ?_, ?_⟩
        · intro k hk
          cases k with
          | zero =>
            rw [← hd0]
            exact le_of_not_lt (by assumption)
          | succ k =>
            rw [← viDelta_shift]
            exact hks k (Nat.lt_of_succ_lt_succ hk)
        · rw [← viDelta_shift]
          exact hdn
        · rw [hW, viIter_shift]
    · intro ⟨n, hn, hks, hdn, hW⟩
      simp only [viLoop]
      split
      · cases n with
        | zero =>
          rw [hW]
          have : viIter m V0 (0 + 1) = (viSweep m m.states V0 0).1 := rfl
          rw [this]
        | succ n =>
          have h0 := hks 0 (Nat.succ_pos n)
          rw [← hd0] at h0
          exact absurd (by assumption) (not_lt.mpr h0)
      · cases n with
        | zero =>
          rw [← hd0] at hdn
          exact absurd hdn (by assumption)
        | succ n =>
          refine (ih _ W).mpr ⟨n, Nat.lt_of_succ_lt_succ hn, ?_, ?_, ?_⟩
          · intro k hk
            rw [viDelta_shift]
            exact hks (k + 1) (Nat.succ_lt_succ hk)
          · rw [viDelta_shift]
            exact hdn
          · rw [hW, viIter_shift]

theorem value_iteration_some {S A : Type} [DecidableEq S] [DecidableEq A]
    (m : MDP S A) (theta : ℚ) (fuel : Nat) (V : S → ℚ) (pol : S → Option A)
    (h : value_iteration m theta fuel = some (V, pol)) :
    viLoop m theta fuel (fun _ => 0) = some V ∧ pol = viPolicy m V := by
  rw [value_iteration] at h
  cases hv : viLoop m theta fuel (fun _ => 0) with
  | none =>
    rw [hv] at h
    cases h
  | some W =>
    rw [hv, Option.map_some'] at h
    have h2 : (W, viPolicy m W) = (V, pol) := (Option.some.injEq _ _).mp h
    have hW : W = V := congrArg Prod.fst h2
    subst hW
    exact ⟨hv ▸ rfl, (congrArg Prod.snd h2).symm⟩

theorem piImprove_untouched {S A : Type} [DecidableEq S] [DecidableEq A] (m : MDP S A)
    (V : S → ℚ) (s : S) :
    ∀ (l : List S) (policy : S → A) (st : Bool) (policy' : S → A) (st' : Bool),
      s ∉ l → piImprove m V l policy st = .ok (policy', st') → policy' s = policy s := by
  intro l
  induction l with
  | nil =>
    intro policy st policy' st' _ h
    have h2 : (policy, st) = (policy', st') := (Except.ok.injEq _ _).mp h
    have h1 : policy = policy' := congrArg Prod.fst h2
    rw [← h1]
  | cons t rest ih =>
    intro policy st policy' st' hs h
    have hst : s ∉ rest := fun hmem => hs (List.mem_cons_of_mem t hmem)
    have hne : s ≠ t := fun he => hs (he ▸ List.mem_cons_self t rest)
    simp only [piImprove] at h
    by_cases ht : m.terminal t = true
    · rw [if_pos ht] at h
      exact ih policy st policy' st' hst h
    · rw [if_neg ht] at h
      cases hp : pymax (qval m V t) m.actions with
      | none =>
        rw [hp] at h
        cases h
      | some b =>
        rw [hp] at h
        rw [ih _ _ policy' st' hst h]
        exact Function.update_noteq hne _ _

theorem piImprove_choice {S A : Type} [DecidableEq S] [DecidableEq A] (m : MDP S A)
    (V : S → ℚ) (s : S) (hterm : m.terminal s = false) :
    ∀ (l : List S) (policy : S → A) (st : Bool) (policy' : S → A) (st' : Bool),
      l.Nodup → s ∈ l → piImprove m V l policy st = .ok (policy', st') →
      ∃ b, pymax (qval m V s) m.actions = some b ∧ policy' s = b := by
  intro l
  induction l with
  | nil =>
    intro policy st policy' st' _ hs
    cases hs
  | cons t rest ih =>
    intro policy st policy' st' hnd hs h
    simp only [piImprove] at h
    rcases List.mem_cons.mp hs with hst | hst
    · rw [hst] at hterm
      rw [if_neg (by rw [hterm]; intro hc; cases hc)] at h
      cases hp : pymax (qval m V t) m.actions with
      | none =>
        rw [hp] at h
        cases h
      | some b =>
        rw [hp] at h
        have hnotin : s ∉ rest := by
          rw [hst]
          exact (List.nodup_cons.mp hnd).1
        refine ⟨b, by rw [hst]; exact hp, ?_⟩
        rw [piImprove_untouched m V s rest _ _ policy' st' hnotin h]
        rw [hst]
        exact Function.update_same _ _ _
    · by_cases ht : m.terminal t = true
      · rw [if_pos ht] at h
        exact ih _ _ policy' st' (List.nodup_cons.mp hnd).2 hst h
      · rw [if_neg ht] at h
        cases hp : pymax (qval m V t) m.actions with
        | none =>
          rw [hp] at h
          cases h
        | some b =>
          rw [hp] at h
          exact ih _ _ policy' st' (List.nodup_cons.mp hnd).2 hst h

theorem piRound_ok {S A : Type} [DecidableEq S] [DecidableEq A] (m : MDP S A)
    (theta : ℚ) (evalFuel : Nat) (policy : S → A) (V : S → ℚ) (policy' : S → A)
    (stable : Bool) (h : piRound m theta evalFuel policy = .ok (V, policy', stable)) :
    policy_evaluation m policy theta evalFuel = some V
      ∧ piImprove m V m.states policy true = .ok (policy', stable) := by
  rw [piRound] at h
  split at h
  · cases h
  · rename_i W hpe
    split at h
    · cases h
    · rename_i policyb stableb him
      injection h with h2
      simp only [Prod.mk.injEq] at h2
      obtain ⟨hW, hp, hst⟩ := h2
      subst hW
      subst hp
      subst hst
      exact ⟨hpe, him⟩

theorem piLoop_value_from_pe {S A : Type} [DecidableEq S] [DecidableEq A] (m : MDP S A)
    (theta : ℚ) (evalFuel : Nat) :
    ∀ (fuel : Nat) (policy : S → A) (V : S → ℚ) (policyr : S → A),
      piLoop m theta evalFuel fuel policy = .ok (V, policyr) →
      ∃ pe, policy_evaluation m pe theta evalFuel = some V := by
  intro fuel
  induction fuel with
  | zero =>
    intro policy V policyr h
    cases h
  | succ fuel ih =>
    intro policy V policyr h
    simp only [piLoop] at h
    split at h
    · cases h
    · rename_i V0 policy' stable hr
      split at h
      · injection h with h2
        simp only [Prod.mk.injEq] at h2
        obtain ⟨hV, hp⟩ := h2
        subst hV
        exact ⟨policy, (piRound_ok m theta evalFuel policy V0 policy' stable hr).1⟩
      · exact ih policy' V policyr h

theorem piSeq_of_error {S A : Type} [DecidableEq S] [DecidableEq A] (m : MDP S A)
    (theta : ℚ) (evalFuel : Nat) (policy : S → A) (e : PiErr)
    (h : piRound m theta evalFuel policy = .error e) :
    ∀ n, piSeq m theta evalFuel n policy = .error e := by
  intro n
  cases n with
  | zero =>
    rw [piSeq]
    exact h
  | succ n =>
    rw [piSeq, h]

theorem piSeq_shift {S A : Type} [DecidableEq S] [DecidableEq A] (m : MDP S A)
    (theta : ℚ) (evalFuel : Nat) (policy policy' : S → A) (V : S → ℚ) (stable : Bool)
    (h : piRound m theta evalFuel policy = .ok (V, policy', stable)) :
    ∀ n, piSeq m theta evalFuel (n + 1) policy = piSeq m theta evalFuel n policy' := by
  intro n
  rw [piSeq, h]

theorem piLoop_iff_stable_round {S A : Type} [DecidableEq S] [DecidableEq A] (m : MDP S A)
    (theta : ℚ) (evalFuel : Nat) :
    ∀ (fuel : Nat) (policy : S → A) (r : (S → ℚ) × (S → A)),
      piLoop m theta evalFuel fuel policy = .ok r ↔
        ∃ n < fuel,
          (∀ k < n, ∃ q, piSeq m theta evalFuel k policy = .ok q ∧ q.2.2 = false)
            ∧ piSeq m theta evalFuel n policy = .ok (r.1, r.2, true) := by
  intro fuel
  induction fuel with
  | zero =>
    intro policy r
    constructor
    · intro h
      cases h
    · intro ⟨n, hn, _⟩
      cases hn
  | succ fuel ih =>
    intro policy r
    constructor
    · intro h
      simp only [piLoop] at h
      split at h
      · cases h
      · rename_i V0 policy' stable hr
        split at h
        · rename_i hst
          injection h with h2
          subst h2
          refine ⟨0, Nat.succ_pos fuel, ?_, ?_⟩
          · intro k hk
            cases hk
          · rw [piSeq, hr, hst]
        · rename_i hst
          rw [Bool.not_eq_true] at hst
          subst hst
          obtain ⟨n, hn, hks, hfin⟩ := (ih policy' r).mp h
          refine ⟨n + 1, Nat.succ_lt_succ hn, ?_, ?_⟩
          · intro k hk
            cases k with
            | zero =>
              exact ⟨(V0, policy', false), by rw [piSeq]; exact hr, rfl⟩
            | succ k =>
              rw [piSeq_shift m theta evalFuel policy policy' V0 false hr]
              exact hks k (Nat.lt_of_succ_lt_succ hk)
          · rw [piSeq_shift m theta evalFuel policy policy' V0 false hr]
            exact hfin
    · intro ⟨n, hn, hks, hfin⟩
      simp only [piLoop]
      cases hr : piRound m theta evalFuel policy with
      | error e =>
        rw [piSeq_of_error m theta evalFuel policy e hr n] at hfin
        cases hfin
      | ok q =>
        obtain ⟨V0, policy', stable⟩ := q
        cases stable with
        | true =>
          show Except.ok (V0, policy') = Except.ok r
          cases n with
          | zero =>
            rw [piSeq, hr] at hfin
            injection hfin with h2
            simp only [Prod.mk.injEq] at h2
            obtain ⟨hV, hp, _⟩ := h2
            rw [hV, hp]
          | succ n =>
            obtain ⟨q0, hq0, hq0f⟩ := hks 0 (Nat.succ_pos n)
            rw [piSeq, hr] at hq0
            have h3 : ((V0, policy', true) : (S → ℚ) × (S → A) × Bool) = q0 :=
              (Except.ok.injEq _ _).mp hq0
            rw [← h3] at hq0f
            cases hq0f
        | false =>
          show piLoop m theta evalFuel fuel policy' = Except.ok r
          cases n with
          | zero =>
            rw [piSeq, hr] at hfin
            injection hfin with h2
            simp only [Prod.mk.injEq] at h2
            obtain ⟨_, _, hfa⟩ := h2
            cases hfa
          | succ n =>
            refine (ih policy' r).mpr ⟨n, Nat.lt_of_succ_lt_succ hn, ?_, ?_⟩
            · intro k hk
              rw [← piSeq_shift m theta evalFuel policy policy' V0 false hr]
              exact hks (k + 1) (Nat.succ_lt_succ hk)
            · rw [← piSeq_shift m theta evalFuel policy policy' V0 false hr]
              exact hfin

theorem pyChoice_ne_nil {A : Type} (k : Nat) (l : List A) (h : l ≠ []) :
    ∃ x, pyChoice k l = some x := by
  cases l with
  | nil => exact absurd rfl h
  | cons a as => exact ⟨_, rfl⟩

theorem qlInner_ne_emptyStart {S A : Type} [DecidableEq S] [DecidableEq A] (m : MDP S A)
    (o : Oracle) (alpha : ℚ) :
    ∀ (fuel t : Nat) (state : S) (Q : S → A → ℚ),
      qlInner m o alpha fuel t state Q ≠ .error .emptyStartStates := by
  intro fuel
  induction fuel with
  | zero =>
    intro t state Q h
    cases h
  | succ fuel ih =>
    intro t state Q h
    rw [qlInner.eq_def] at h
    simp only [] at h
    split at h
    · cases h
    · split at h
      · cases h
      · split at h
        · cases h
        · split at h
          · cases h
          · exact ih _ _ _ h

theorem qlInner_terminal_rows {S A : Type} [DecidableEq S] [DecidableEq A] (m : MDP S A)
    (o : Oracle) (alpha : ℚ) :
    ∀ (fuel t : Nat) (state : S) (Q : S → A → ℚ) (Q' : S → A → ℚ) (t' : Nat),
      (∀ s a, m.terminal s = true → Q s a = 0) →
      qlInner m o alpha fuel t state Q = .ok (Q', t') →
      ∀ s a, m.terminal s = true → Q' s a = 0 := by
  intro fuel
  induction fuel with
  | zero =>
    intro t state Q Q' t' _ h
    cases h
  | succ fuel ih =>
    intro t state Q Q' t' hQ h
    rw [qlInner.eq_def] at h
    simp only [] at h
    split at h
    · rename_i hterm
      have h2 : (Q, t) = (Q', t') := (Except.ok.injEq _ _).mp h
      have hQ2 : Q = Q' := congrArg Prod.fst h2
      rw [← hQ2]
      exact hQ
    · rename_i hterm
      split at h
      · cases h
      · rename_i action hact
        split at h
        · cases h
        · rename_i pr hstep
          split at h
          · cases h
          · rename_i mq hmax
            refine ih _ _ _ Q' t' ?_ h
            intro s a hs
            rw [qlearnUpdate]
            rw [if_neg ?_]
            · exact hQ s a hs
            · intro hc
              rw [hc.1] at hs
              rw [hs] at hterm
              exact hterm rfl

theorem qlEpisodes_ne_emptyStart {S A : Type} [DecidableEq S] [DecidableEq A] (m : MDP S A)
    (o : Oracle) (alpha : ℚ) (innerFuel : Nat)
    (hne : m.states.filter (fun s => !m.terminal s) ≠ []) :
    ∀ (ep epIdx t : Nat) (Q : S → A → ℚ),
      qlEpisodes m o alpha innerFuel ep epIdx t Q ≠ .error .emptyStartStates := by
  intro ep
  induction ep with
  | zero =>
    intro epIdx t Q h
    cases h
  | succ ep ih =>
    intro epIdx t Q h
    rw [qlEpisodes.eq_def] at h
    simp only [] at h
    split at h
    · rename_i hchoice
      obtain ⟨x, hx⟩ := pyChoice_ne_nil (o.start epIdx) _ hne
      rw [hchoice] at hx
      cases hx
    · rename_i state hchoice
      split at h
      · rename_i e hinner
        have h2 : e = QlErr.emptyStartStates := (Except.error.injEq _ _).mp h
        rw [h2] at hinner
        exact qlInner_ne_emptyStart m o alpha _ _ _ _ hinner
      · exact ih _ _ _ h

theorem qlEpisodes_terminal_rows {S A : Type} [DecidableEq S] [DecidableEq A] (m : MDP S A)
    (o : Oracle) (alpha : ℚ) (innerFuel : Nat) :
    ∀ (ep epIdx t : Nat) (Q Q' : S → A → ℚ) (t' : Nat),
      (∀ s a, m.terminal s = true → Q s a = 0) →
      qlEpisodes m o alpha innerFuel ep epIdx t Q = .ok (Q', t') →
      ∀ s a, m.terminal s = true → Q' s a = 0 := by
  intro ep
  induction ep with
  | zero =>
    intro epIdx t Q Q' t' hQ h
    have h2 : (Q, t) = (Q', t') := (Except.ok.injEq _ _).mp h
    have hQ2 : Q = Q' := congrArg Prod.fst h2
    rw [← hQ2]
    exact hQ
  | succ ep ih =>
    intro epIdx t Q Q' t' hQ h
    rw [qlEpisodes.eq_def] at h
    simp only [] at h
    split at h
    · cases h
    · rename_i state hchoice
      split at h
      · cases h
      · rename_i Qi ti hinner
        exact ih _ _ Qi Q' t'
          (qlInner_terminal_rows m o alpha innerFuel t state Q Qi ti hQ hinner)
          h

theorem q_learning_ok {S A : Type} [DecidableEq S] [DecidableEq A] (m : MDP S A)
    (o : Oracle) (episodes : Nat) (alpha : ℚ) (innerFuel : Nat)
    (Q : S → A → ℚ) (pol : S → Option A)
    (h : q_learning m o episodes alpha innerFuel = .ok (Q, pol)) :
    (∃ t', qlEpisodes m o alpha innerFuel episodes 0 0 qlQ0 = .ok (Q, t'))
      ∧ pol = fun s => if m.terminal s then none else pymax (Q s) m.actions := by
  rw [q_learning] at h
  split at h
  · cases h
  · rename_i Qr tr hq
    have h2 : ((Qr, fun s => if m.terminal s = true then none else pymax (Qr s) m.actions)
        : (S → A → ℚ) × (S → Option A)) = (Q, pol) := (Except.ok.injEq _ _).mp h
    have hQ : Qr = Q := congrArg Prod.fst h2
    have hp : (fun s => if m.terminal s = true then none else pymax (Qr s) m.actions) = pol :=
      congrArg Prod.snd h2
    rw [hQ] at hp hq
    exact ⟨⟨tr, hq⟩, hp.symm⟩

theorem q_learning_all_terminal {S A : Type} [DecidableEq S] [DecidableEq A] (m : MDP S A)
    (o : Oracle) (episodes : Nat) (alpha : ℚ) (innerFuel : Nat)
    (hep : 1 ≤ episodes) (hall : ∀ s ∈ m.states, m.terminal s = true) :
    q_learning m o episodes alpha innerFuel = .error .emptyStartStates := by
  have hfil : m.states.filter (fun s => !m.terminal s) = [] := by
    rw [List.filter_eq_nil]
    intro s hs
    rw [hall s hs]
    intro hc
    cases hc
  cases episodes with
  | zero => cases hep
  | succ ep =>
    rw [q_learning, qlEpisodes.eq_def]
    simp only [hfil]
    rfl

theorem policy_iteration_ok {S A : Type} [DecidableEq S] [DecidableEq A] [Inhabited A]
    (m : MDP S A) (oi : S → Nat) (theta : ℚ) (evalFuel loopFuel : Nat)
    (V : S → ℚ) (pol : S → Option A)
    (h : policy_iteration m oi theta evalFuel loopFuel = .ok (V, pol)) :
    ∃ policy0 core, piInit m oi m.states (fun _ => default) = .ok policy0
      ∧ piLoop m theta evalFuel loopFuel policy0 = .ok (V, core)
      ∧ pol = fun s => if m.terminal s then none else some (core s) := by
  rw [policy_iteration] at h
  split at h
  · cases h
  · rename_i policy0 hinit
    split at h
    · cases h
    · rename_i W core hloop
      have h2 : ((W, fun s => if m.terminal s = true then none else some (core s))
          : (S → ℚ) × (S → Option A)) = (V, pol) := (Except.ok.injEq _ _).mp h
      have hW : W = V := congrArg Prod.fst h2
      have hp : (fun s => if m.terminal s = true then none else some (core s)) = pol :=
        congrArg Prod.snd h2
      rw [hW] at hloop
      exact ⟨policy0, core, hinit, hloop, hp.symm⟩

theorem qlInner_step {S A : Type} [DecidableEq S] [DecidableEq A] (m : MDP S A) (o : Oracle)
    (alpha : ℚ) (fuel t : Nat) (state next_state : S) (Q : S → A → ℚ) (action : A)
    (reward mq : ℚ)
    (hterm : m.terminal state = false)
    (hact : qlAction m o t Q state = some action)
    (hstep : stepO m (o.succIdx t) state action = some (next_state, reward))
    (hmax : listMax (m.actions.map (Q next_state)) = some mq) :
    qlInner m o alpha (fuel + 1) t state Q
      = qlInner m o alpha fuel (t + 1) next_state
          (qlearnUpdate m alpha Q state action reward mq) := by
  rw [qlInner.eq_def]
  simp only [hterm, Bool.false_eq_true, if_false, hact, hstep, hmax]

theorem policy_improvement_exact {S A : Type} (m : MDP S A) (pi0 pig : S → A) (V Vg : S → ℚ)
    (hval : validModel m) (hg0 : 0 ≤ m.gamma) (hg1 : m.gamma < 1)
    (hpi : ∀ s ∈ m.states, pi0 s ∈ m.actions)
    (hpig : ∀ s ∈ m.states, pig s ∈ m.actions)
    (hV : isPolicyFix m pi0 V) (hVg : isPolicyFix m pig Vg)
    (hg : ∀ s ∈ m.states, m.terminal s = false →
        ∀ a ∈ m.actions, qval m V s a ≤ qval m V s (pig s)) :
    ∀ s ∈ m.states, V s ≤ Vg s := by
  intro s hs
  have hne : m.states ≠ [] := by
    intro h
    rw [h] at hs
    cases hs
  obtain ⟨u, hu, hmin⟩ := exists_min_on (fun w => Vg w - V w) m.states hne
  have key : 0 ≤ Vg u - V u := by
    by_cases hterm : m.terminal u = true
    · have h1 := hV u hu
      have h2 := hVg u hu
      rw [if_pos hterm] at h1 h2
      rw [h1, h2]
      norm_num
    · have hterm' : m.terminal u = false := by
        cases hmt : m.terminal u
        · rfl
        · exact absurd hmt hterm
      have h1 := hV u hu
      have h2 := hVg u hu
      rw [if_neg hterm] at h1 h2
      have h3 : qval m V u (pi0 u) ≤ qval m V u (pig u) :=
        hg u hu hterm' (pi0 u) (hpi u hu)
      have h4 : qval m Vg u (pig u) - qval m V u (pig u)
          = m.gamma * ((m.P u (pig u)).map (fun pr => pr.1 * (Vg pr.2 - V pr.2))).sum :=
        qval_sub m V Vg u (pig u)
      obtain ⟨hsum, hprs⟩ := hval u hu (pig u) (hpig u hu)
      have h5 : (Vg u - V u) * ((m.P u (pig u)).map Prod.fst).sum
          ≤ ((m.P u (pig u)).map (fun pr => pr.1 * (Vg pr.2 - V pr.2))).sum := by
        exact sum_weight_lb (fun w => Vg w - V w) (Vg u - V u) (m.P u (pig u))
          (fun pr hpr => ⟨(hprs pr hpr).1, hmin pr.2 (hprs pr hpr).2⟩)
      rw [hsum, mul_one] at h5
      have h6 : m.gamma * (Vg u - V u) ≤ Vg u - V u := by
        have h7 : m.gamma * (Vg u - V u)
            ≤ m.gamma * ((m.P u (pig u)).map (fun pr => pr.1 * (Vg pr.2 - V pr.2))).sum :=
          mul_le_mul_of_nonneg_left h5 hg0
        rw [← h4] at h7
        linarith
      by_contra hd
      push_neg at hd
      have hpos : 0 < 1 - m.gamma := by linarith
      have h8 : (1 - m.gamma) * (Vg u - V u) < 0 := mul_neg_of_pos_of_neg hpos hd
      nlinarith [h6]
  have h9 := hmin s hs
  simp only [] at h9 key
  linarith

theorem demo_validModel : validModel demoM := by
  intro s hs a ha
  fin_cases hs <;> fin_cases ha <;> constructor <;> norm_num [demoM] <;> decide

theorem cyc_validModel : validModel cycM := by
  intro s hs a ha
  fin_cases hs <;> fin_cases ha <;> constructor <;> norm_num [cycM] <;> decide

/-! ## The claims -/

/-- Claim C1, counterexample: the model `badM`, whose `(u, ·)` transition
rows have probability mass 9/10, violates the spec's kernel invariant, yet
`MDP.__init__` accepts it unchanged (no failure at construction) and
`value_iteration` then runs on it and returns a value function and policy,
with `V(u) = 9/10`.  The claim that such a model "fails at construction,
before any algorithm runs, and produces no value function or policy" is
therefore false of the code. -/
theorem C1_counterexample :
    ¬ kernelValid badM
      ∧ mkMDP [St.u, St.v] [Act.a, Act.b] badM.P badM.R (1/2) (some badM.terminal) = badM
      ∧ value_iteration badM 1 2 = some (badV, demoPol)
      ∧ badV St.u = 9/10 :=
  ⟨bad_not_kernelValid, rfl, bad_value_iteration, rfl⟩

/-- Claim C1, amended: `MDP.__init__` performs no validation whatsoever — it
always succeeds and stores every field exactly as given (with a missing
terminal set defaulting to empty), so a malformed kernel (probabilities
summing to 0.9, or referencing unknown states) is accepted at construction
and the algorithms consume it as given; in particular `value_iteration` can
return a value function and policy for such a model. -/
theorem C1_amended {S A : Type} [DecidableEq S] [DecidableEq A] :
    (∀ (st : List S) (ac : List A) (tp : S → A → List (ℚ × S)) (rw : S → A → ℚ)
        (g : ℚ) (ts : Option (S → Bool)),
        (mkMDP st ac tp rw g ts).states = st
          ∧ (mkMDP st ac tp rw g ts).actions = ac
          ∧ (mkMDP st ac tp rw g ts).P = tp
          ∧ (mkMDP st ac tp rw g ts).R = rw
          ∧ (mkMDP st ac tp rw g ts).gamma = g
          ∧ (mkMDP st ac tp rw g ts).terminal = ts.getD (fun _ => false))
      ∧ ∃ m : MDP St Act, ¬ kernelValid m ∧ (value_iteration m 1 2).isSome = true :=
  ⟨fun _ _ _ _ _ _ => ⟨rfl, rfl, rfl, rfl, rfl, rfl⟩,
    badM, bad_not_kernelValid, by rw [bad_value_iteration]; rfl⟩

/-- Claim C2: terminal states are inert in every algorithm's output — the
value functions returned by `policy_evaluation`, `value_iteration` and
`policy_iteration` assign 0 to every terminal state, and the policies
returned by `value_iteration`, `policy_iteration` and `q_learning` map
every terminal state to `None`. -/
theorem C2_terminal_states {S A : Type} [DecidableEq S] [DecidableEq A] [Inhabited A]
    (m : MDP S A) (policy : S → A) (o : Oracle) (oi : S → Nat) (theta alpha : ℚ)
    (peFuel viFuel evalFuel loopFuel episodes innerFuel : Nat) (s : S)
    (hs : m.terminal s = true) :
    (∀ V, policy_evaluation m policy theta peFuel = some V → V s = 0)
      ∧ (∀ V pol, value_iteration m theta viFuel = some (V, pol) → V s = 0 ∧ pol s = none)
      ∧ (∀ V pol, policy_iteration m oi theta evalFuel loopFuel = .ok (V, pol) →
          V s = 0 ∧ pol s = none)
      ∧ (∀ Q pol, q_learning m o episodes alpha innerFuel = .ok (Q, pol) → pol s = none) := by
  refine ⟨?_, ?_, ?_, ?_⟩
  · intro V h
    exact policy_evaluation_terminal_zero m policy theta peFuel V s hs h
  · intro V pol h
    obtain ⟨hloop, hpol⟩ := value_iteration_some m theta viFuel V pol h
    constructor
    · exact viLoop_const_on_terminal m theta s hs viFuel _ V hloop
    · rw [hpol, viPolicy, if_pos hs]
  · intro V pol h
    obtain ⟨policy0, core, _, hloop, hpol⟩ := policy_iteration_ok m oi theta evalFuel loopFuel V pol h
    constructor
    · obtain ⟨pe, hpe⟩ := piLoop_value_from_pe m theta evalFuel loopFuel policy0 V core hloop
      exact policy_evaluation_terminal_zero m pe theta evalFuel V s hs hpe
    · rw [hpol]
      simp [hs]
  · intro Q pol h
    obtain ⟨_, hpol⟩ := q_learning_ok m o episodes alpha innerFuel Q pol h
    rw [hpol]
    simp [hs]

/-- Claim C2, witness: on the concrete model `demoM` with terminal state
`v`, every algorithm returns a result, and the returned value functions and
policies are 0 resp. `None` at `v`. -/
theorem C2_terminal_states_witness :
    (demoM.terminal St.v = true
      ∧ ((∀ V, policy_evaluation demoM demoPi 1 3 = some V → V St.v = 0)
        ∧ (∀ V pol, value_iteration demoM 1 3 = some (V, pol) → V St.v = 0 ∧ pol St.v = none)
        ∧ (∀ V pol, policy_iteration demoM (fun _ => 0) 1 3 2 = .ok (V, pol) →
            V St.v = 0 ∧ pol St.v = none)
        ∧ (∀ Q pol, q_learning demoM demoOracle 1 (1/2) 3 = .ok (Q, pol) → pol St.v = none)))
      ∧ policy_evaluation demoM demoPi 1 3 = some demoV
      ∧ value_iteration demoM 1 3 = some (demoV, demoPol)
      ∧ policy_iteration demoM (fun _ => 0) 1 3 2 = .ok (demoV, demoPol)
      ∧ q_learning demoM demoOracle 1 (1/2) 3 = .ok (demoQ, demoPol)
      ∧ demoV St.v = 0 ∧ demoPol St.v = none :=
  ⟨⟨rfl, C2_terminal_states demoM demoPi demoOracle (fun _ => 0) 1 (1/2) 3 3 3 2 1 3 St.v rfl⟩,
    demo_pe, demo_value_iteration, demo_policy_iteration, demo_q_learning, rfl, rfl⟩

/-- Claim C3: in every sweep of `value_iteration`, terminal states are
skipped (their entry is left untouched), each non-terminal state's entry is
replaced — in place, using the partially updated value function of the
sweep in progress — by `bestVal`, which is the maximum over all actions of
`Σ_{(p,s') ∈ P(s,a)} p·(R(s,a) + γ·V(s'))`; and the sweep loop returns
exactly when a sweep's maximum absolute change `delta` falls below `theta`,
with the result being the value function of that final sweep. -/
theorem C3_value_iteration_sweep {S A : Type} [DecidableEq S] [DecidableEq A]
    (m : MDP S A) (V V0 W : S → ℚ) (theta d : ℚ) (fuel : Nat)
    (l1 l2 : List S) (s : S)
    (hsplit : m.states = l1 ++ s :: l2) (hs2 : s ∉ l2)
    (hterm : m.terminal s = false) (hact : m.actions ≠ []) :
    (∀ (t : S) (l : List S) (Vx : S → ℚ) (dx : ℚ), m.terminal t = true →
        (viSweep m l Vx dx).1 t = Vx t)
      ∧ (viSweep m m.states V d).1 s = bestVal m ((viSweep m l1 V d).1) s
      ∧ (∀ a ∈ m.actions,
          qval m ((viSweep m l1 V d).1) s a ≤ bestVal m ((viSweep m l1 V d).1) s)
      ∧ (∃ a ∈ m.actions, bestVal m ((viSweep m l1 V d).1) s
          = qval m ((viSweep m l1 V d).1) s a)
      ∧ (viLoop m theta fuel V0 = some W ↔
          ∃ n < fuel, (∀ k < n, theta ≤ viDelta m V0 k) ∧ viDelta m V0 n < theta
            ∧ W = viIter m V0 (n + 1)) := by
  obtain ⟨hub, hex⟩ := bestVal_spec m ((viSweep m l1 V d).1) s hact
  refine ⟨?_, ?_, hub, hex, viLoop_iff m theta fuel V0 W⟩
  · intro t l Vx dx ht
    exact viSweep_terminal m t ht l Vx dx
  · rw [hsplit]
    exact viSweep_value m l1 l2 s V d hterm hs2

/-- Claim C3, witness: instantiated on `demoM`, splitting its state list as
`[] ++ u :: [v]`, with the loop characterisation witnessed by the actual
converged run. -/
theorem C3_value_iteration_sweep_witness :
    (demoM.states = [] ++ St.u :: [St.v] ∧ St.u ∉ [St.v]
        ∧ demoM.terminal St.u = false ∧ demoM.actions ≠ [])
      ∧ ((∀ (t : St) (l : List St) (Vx : St → ℚ) (dx : ℚ), demoM.terminal t = true →
            (viSweep demoM l Vx dx).1 t = Vx t)
        ∧ (viSweep demoM demoM.states (fun _ => 0) 0).1 St.u
            = bestVal demoM ((viSweep demoM [] (fun _ => 0) 0).1) St.u
        ∧ (∀ a ∈ demoM.actions,
            qval demoM ((viSweep demoM [] (fun _ => 0) 0).1) St.u a
              ≤ bestVal demoM ((viSweep demoM [] (fun _ => 0) 0).1) St.u)
        ∧ (∃ a ∈ demoM.actions, bestVal demoM ((viSweep demoM [] (fun _ => 0) 0).1) St.u
            = qval demoM ((viSweep demoM [] (fun _ => 0) 0).1) St.u a)
        ∧ (viLoop demoM 1 3 (fun _ => 0) = some demoV ↔
            ∃ n < 3, (∀ k < n, 1 ≤ viDelta demoM (fun _ => 0) k)
              ∧ viDelta demoM (fun _ => 0) n < 1
              ∧ demoV = viIter demoM (fun _ => 0) (n + 1)))
      ∧ viLoop demoM 1 3 (fun _ => 0) = some demoV :=
  ⟨⟨rfl, by decide, rfl, by decide⟩,
    C3_value_iteration_sweep demoM (fun _ => 0) (fun _ => 0) demoV 1 0 3 [] [St.v] St.u
      rfl (by decide) rfl (by decide),
    demo_viLoop⟩

/-- Claim C4: for a non-terminal state, the action chosen by
`value_iteration`'s policy-derivation pass and the action installed for that
state by `policy_iteration`'s improvement sweep coincide, and that action is
the first maximum of the one-step lookahead `qval` over the action list:
it belongs to the list, no action has a strictly larger lookahead, and every
action listed before it has a strictly smaller lookahead. -/
theorem C4_greedy_first_max {S A : Type} [DecidableEq S] [DecidableEq A]
    (m : MDP S A) (V : S → ℚ) (policy policy' : S → A) (st0 stb : Bool) (s : S)
    (hterm : m.terminal s = false) (hact : m.actions ≠ [])
    (hnd : m.states.Nodup) (hs : s ∈ m.states)
    (himp : piImprove m V m.states policy st0 = .ok (policy', stb)) :
    ∃ b, viPolicy m V s = some b ∧ policy' s = b ∧ isFirstMax (qval m V s) m.actions b := by
  obtain ⟨b, hb, hfm⟩ := pymax_spec (qval m V s) m.actions hact
  obtain ⟨b', hb', hpb'⟩ :=
    piImprove_choice m V s hterm m.states policy st0 policy' stb hnd hs himp
  have hbb : b' = b := by
    rw [hb] at hb'
    exact ((Option.some.injEq _ _).mp hb').symm
  refine ⟨b, ?_, ?_, hfm⟩
  · rw [viPolicy, if_neg (by rw [hterm]; intro hc; cases hc)]
    exact hb
  · rw [hpb', hbb]

/-- Claim C4, witness: on `demoM` at state `u`, both planners select action
`a`, the first maximum of the lookahead over `[a, b]`. -/
theorem C4_greedy_first_max_witness :
    (demoM.terminal St.u = false ∧ demoM.actions ≠ [] ∧ demoM.states.Nodup
        ∧ St.u ∈ demoM.states
        ∧ piImprove demoM demoV demoM.states demoPi true = .ok (demoPi, true))
      ∧ ∃ b, viPolicy demoM demoV St.u = some b ∧ demoPi St.u = b
          ∧ isFirstMax (qval demoM demoV St.u) demoM.actions b :=
  ⟨⟨rfl, by decide, by decide, by decide, demo_piImprove⟩,
    C4_greedy_first_max demoM demoV demoPi demoPi true true St.u rfl (by decide) (by decide)
      (by decide) demo_piImprove⟩

/-- Claim C5: `step` on a terminal state returns exactly `(state, 0)`, for
every action and every sampling draw, and does so without consulting the
transition kernel or the reward table: the result is unchanged under
arbitrary replacement of `P` and `R`. -/
theorem C5_step_terminal {S A : Type} [DecidableEq S] [DecidableEq A]
    (m : MDP S A) (s : S) (a : A) (k : Nat) (hterm : m.terminal s = true) :
    stepO m k s a = some (s, 0)
      ∧ ∀ (tp : S → A → List (ℚ × S)) (rw : S → A → ℚ),
          stepO { m with P := tp, R := rw } k s a = some (s, 0) := by
  constructor
  · rw [stepO, if_pos hterm]
  · intro tp rw
    rw [stepO]
    have : ({ m with P := tp, R := rw } : MDP S A).terminal s = true := hterm
    rw [if_pos this]

/-- Claim C5, witness: stepping the terminal state `v` of `demoM` with
action `b` and draw index 7 yields `(v, 0)`, also after `P` and `R` are
replaced arbitrarily. -/
theorem C5_step_terminal_witness :
    demoM.terminal St.v = true
      ∧ (stepO demoM 7 St.v Act.b = some (St.v, 0)
        ∧ ∀ (tp : St → Act → List (ℚ × St)) (rw : St → Act → ℚ),
            stepO { demoM with P := tp, R := rw } 7 St.v Act.b = some (St.v, 0)) :=
  ⟨rfl, C5_step_terminal demoM St.v Act.b 7 rfl⟩

/-- Claim C6: the Q-table of `q_learning` starts at 0 for every
(state, action) pair; and each pass of the inner loop on a non-terminal
state `s`, with resolved action `a`, `(next_state, reward)` obtained from
`step`, and `mq` the maximum of the next state's Q-row, continues with
exactly `qlearnUpdate`, which changes the table only at entry `(s, a)`,
setting it to `Q(s,a) + α·(reward + γ·mq − Q(s,a))`; `mq` is the row
maximum of the old table. -/
theorem C6_qlearning_update {S A : Type} [DecidableEq S] [DecidableEq A]
    (m : MDP S A) (o : Oracle) (alpha : ℚ) (fuel t : Nat) (state next_state : S)
    (Q : S → A → ℚ) (action : A) (reward mq : ℚ)
    (hterm : m.terminal state = false)
    (hact : qlAction m o t Q state = some action)
    (hstep : stepO m (o.succIdx t) state action = some (next_state, reward))
    (hmax : listMax (m.actions.map (Q next_state)) = some mq) :
    (∀ (s : S) (a : A), qlQ0 s a = (0:ℚ))
      ∧ qlInner m o alpha (fuel + 1) t state Q
          = qlInner m o alpha fuel (t + 1) next_state
              (qlearnUpdate m alpha Q state action reward mq)
      ∧ qlearnUpdate m alpha Q state action reward mq state action
          = Q state action + alpha * (reward + m.gamma * mq - Q state action)
      ∧ (∀ (s' : S) (a' : A), ¬(s' = state ∧ a' = action) →
          qlearnUpdate m alpha Q state action reward mq s' a' = Q s' a')
      ∧ (∀ a' ∈ m.actions, Q next_state a' ≤ mq)
      ∧ mq ∈ m.actions.map (Q next_state) := by
  obtain ⟨hmem, hle⟩ := listMax_spec _ _ hmax
  refine ⟨fun _ _ => rfl, ?_, ?_, ?_, ?_, hmem⟩
  · exact qlInner_step m o alpha fuel t state next_state Q action reward mq
      hterm hact hstep hmax
  · rw [qlearnUpdate, if_pos ⟨rfl, rfl⟩]
  · intro s' a' hne
    rw [qlearnUpdate, if_neg hne]
  · intro a' ha'
    exact hle _ (List.mem_map_of_mem _ ha')

/-- Claim C6, witness: the recorded first step of the `demoM` run — state
`u`, action `a`, step result `(v, 1)`, row maximum 0 — updates only
`Q(u, a)`, to `1/2`. -/
theorem C6_qlearning_update_witness :
    (demoM.terminal St.u = false
        ∧ qlAction demoM demoOracle 0 qlQ0 St.u = some Act.a
        ∧ stepO demoM (demoOracle.succIdx 0) St.u Act.a = some (St.v, 1)
        ∧ listMax (demoM.actions.map (qlQ0 St.v)) = some 0)
      ∧ ((∀ (s : St) (a : Act), qlQ0 s a = (0:ℚ))
        ∧ qlInner demoM demoOracle (1/2) (2 + 1) 0 St.u qlQ0
            = qlInner demoM demoOracle (1/2) 2 (0 + 1) St.v
                (qlearnUpdate demoM (1/2) qlQ0 St.u Act.a 1 0)
        ∧ qlearnUpdate demoM (1/2) qlQ0 St.u Act.a 1 0 St.u Act.a
            = qlQ0 St.u Act.a + (1/2) * (1 + demoM.gamma * 0 - qlQ0 St.u Act.a)
        ∧ (∀ (s' : St) (a' : Act), ¬(s' = St.u ∧ a' = Act.a) →
            qlearnUpdate demoM (1/2) qlQ0 St.u Act.a 1 0 s' a' = qlQ0 s' a')
        ∧ (∀ a' ∈ demoM.actions, qlQ0 St.v a' ≤ 0)
        ∧ (0:ℚ) ∈ demoM.actions.map (qlQ0 St.v))
      ∧ qlearnUpdate demoM (1/2) qlQ0 St.u Act.a 1 0 St.u Act.a = 1/2 :=
  ⟨⟨rfl, demo_qlAction, demo_step, demo_listMax⟩,
    C6_qlearning_update demoM demoOracle (1/2) 2 0 St.u St.v qlQ0 Act.a 1 0
      rfl demo_qlAction demo_step demo_listMax,
    by norm_num [qlearnUpdate, qlQ0, demoM]⟩

/-- Claim C7, counterexample: `cycM` is a valid model (`validModel`,
probabilities sum to 1, γ = 9/10 < 1) with `|states|·|actions| = 4`, yet
`policy_iteration` with `theta = 2` runs 5 improvement rounds without ever
reaching a stable policy — the loop fuel of 5 > 4 is exhausted, so the
claimed bound of at most `|states|·|actions|` improvement rounds (and
termination itself) fails. -/
theorem C7_counterexample :
    cycM.states.length * cycM.actions.length = 4
      ∧ validModel cycM ∧ cycM.gamma < 1
      ∧ policy_iteration cycM (fun _ => 0) 2 3 5 = .error .loopFuel :=
  ⟨rfl, cyc_validModel, by norm_num [cycM], cyc_policy_iteration⟩

/-- Claim C7, amended: `policy_iteration`'s loop exits exactly when some
improvement round changes no state's action — `piLoop` returns a result iff
some round `n` within the fuel is stable (`piSeq … = .ok (·, ·, true)`),
all earlier rounds being unstable, and the returned pair is that round's
evaluated value function and (unchanged) policy.  No bound of
`|states|·|actions|` rounds holds, and for some valid models with γ < 1 the
stable round never comes. -/
theorem C7_amended {S A : Type} [DecidableEq S] [DecidableEq A] (m : MDP S A)
    (theta : ℚ) (evalFuel fuel : Nat) (policy : S → A) (r : (S → ℚ) × (S → A)) :
    piLoop m theta evalFuel fuel policy = .ok r ↔
      ∃ n < fuel,
        (∀ k < n, ∃ q, piSeq m theta evalFuel k policy = .ok q ∧ q.2.2 = false)
          ∧ piSeq m theta evalFuel n policy = .ok (r.1, r.2, true) :=
  piLoop_iff_stable_round m theta evalFuel fuel policy r

/-- Claim C8, counterexample: on the valid model `cycM` (γ = 9/10 < 1) with
`theta = 2`, `policy_iteration` starts (index-0 draws) from the all-`a`
policy; round 0 evaluates it to `V₀(v) = 9/10` and switches `v` to `b`, and
round 1 evaluates the improved policy to `V₁(v) = 1/5 < 9/10` — the value
function computed by `policy_evaluation` regresses pointwise between
consecutive improvement rounds. -/
theorem C8_counterexample :
    validModel cycM ∧ cycM.gamma < 1
      ∧ piInit cycM (fun _ => 0) cycM.states (fun _ => default) = .ok cycPi0
      ∧ piSeq cycM 2 3 0 cycPi0 = .ok (cycV0, cycPi1, false)
      ∧ piSeq cycM 2 3 1 cycPi0 = .ok (cycV1, cycPi0, false)
      ∧ cycV1 St.v < cycV0 St.v :=
  ⟨cyc_validModel, by norm_num [cycM], cyc_piInit, cyc_piSeq0, cyc_piSeq1,
    by norm_num [cycV0, cycV1]⟩

/-- Claim C8, amended: pointwise monotonicity of policy improvement holds
for the exact fixed-point value functions (what `policy_evaluation`
computes in the limit θ → 0, characterised by `isPolicyFix`): on a valid
model with 0 ≤ γ < 1, if `V` is the exact value of policy `π`, `Vg` the
exact value of `πg`, and `πg` is greedy with respect to `V`, then
`V ≤ Vg` at every state. -/
theorem C8_amended {S A : Type} (m : MDP S A) (pi0 pig : S → A) (V Vg : S → ℚ)
    (hval : validModel m) (hg0 : 0 ≤ m.gamma) (hg1 : m.gamma < 1)
    (hpi : ∀ s ∈ m.states, pi0 s ∈ m.actions)
    (hpig : ∀ s ∈ m.states, pig s ∈ m.actions)
    (hV : isPolicyFix m pi0 V) (hVg : isPolicyFix m pig Vg)
    (hg : ∀ s ∈ m.states, m.terminal s = false →
        ∀ a ∈ m.actions, qval m V s a ≤ qval m V s (pig s)) :
    ∀ s ∈ m.states, V s ≤ Vg s :=
  policy_improvement_exact m pi0 pig V Vg hval hg0 hg1 hpi hpig hV hVg hg

theorem demo_fix_b : isPolicyFix demoM (fun _ => Act.b) (fun _ => 0) := by
  intro s hs
  fin_cases hs <;> norm_num [demoM, qval]

theorem demo_fix_a : isPolicyFix demoM (fun _ => Act.a) demoV := by
  intro s hs
  fin_cases hs <;> norm_num [demoM, demoV, qval]

theorem demo_greedy_a : ∀ s ∈ demoM.states, demoM.terminal s = false →
    ∀ x ∈ demoM.actions, qval demoM (fun _ => 0) s x
      ≤ qval demoM (fun _ => 0) s ((fun _ => Act.a) s) := by
  intro s hs hterm x hx
  fin_cases hs
  · fin_cases hx <;> norm_num [demoM, qval]
  · cases hterm

/-- Claim C8 amended, witness: on `demoM`, the exact value of the all-`b`
policy is 0 everywhere, the exact value of the greedy all-`a` policy is
`demoV`, and the improvement is pointwise non-decreasing. -/
theorem C8_amended_witness :
    (validModel demoM ∧ isPolicyFix demoM (fun _ => Act.b) (fun _ => 0)
        ∧ isPolicyFix demoM (fun _ => Act.a) demoV)
      ∧ ∀ s ∈ demoM.states, (fun _ => (0:ℚ)) s ≤ demoV s :=
  ⟨⟨demo_validModel, demo_fix_b, demo_fix_a⟩,
    C8_amended demoM (fun _ => Act.b) (fun _ => Act.a) (fun _ => 0) demoV
      demo_validModel (by norm_num [demoM]) (by norm_num [demoM])
      (by intro s _; show Act.b ∈ demoM.actions; decide)
      (by intro s _; show Act.a ∈ demoM.actions; decide)
      demo_fix_b demo_fix_a demo_greedy_a⟩

/-- Claim C9: terminal rows of the Q-table stay at their initial zeros
throughout any run of `q_learning`: a single episode's inner loop preserves
the all-zero-terminal-rows invariant (the loop exits on reaching a terminal
state before writing its entries), and the Q-table `q_learning` returns is
0 at every (terminal state, action) pair. -/
theorem C9_ql_terminal_rows {S A : Type} [DecidableEq S] [DecidableEq A]
    (m : MDP S A) (o : Oracle) (alpha : ℚ) (fuel t : Nat) (state : S)
    (episodes innerFuel : Nat) (Q Q' : S → A → ℚ) (t' : Nat)
    (hQ : ∀ s a, m.terminal s = true → Q s a = 0)
    (hrun : qlInner m o alpha fuel t state Q = .ok (Q', t')) :
    (∀ s a, m.terminal s = true → Q' s a = 0)
      ∧ (∀ Qf pol, q_learning m o episodes alpha innerFuel = .ok (Qf, pol) →
          ∀ s a, m.terminal s = true → Qf s a = 0) := by
  constructor
  · exact qlInner_terminal_rows m o alpha fuel t state Q Q' t' hQ hrun
  · intro Qf pol h
    obtain ⟨⟨tf, hq⟩, _⟩ := q_learning_ok m o episodes alpha innerFuel Qf pol h
    exact qlEpisodes_terminal_rows m o alpha innerFuel episodes 0 0 qlQ0 Qf tf
      (fun _ _ _ => rfl) hq

/-- Claim C9, witness: the recorded `demoM` episode starts from the
all-zero table, ends with `Q = demoQ`, and `demoQ` is 0 on the terminal
row `v`; the full `q_learning` run returns that table. -/
theorem C9_ql_terminal_rows_witness :
    ((∀ (s : St) (a : Act), demoM.terminal s = true → qlQ0 s a = (0:ℚ))
        ∧ qlInner demoM demoOracle (1/2) 3 0 St.u qlQ0 = .ok (demoQ, 1))
      ∧ ((∀ (s : St) (a : Act), demoM.terminal s = true → demoQ s a = 0)
        ∧ (∀ Qf pol, q_learning demoM demoOracle 1 (1/2) 3 = .ok (Qf, pol) →
            ∀ (s : St) (a : Act), demoM.terminal s = true → Qf s a = 0))
      ∧ q_learning demoM demoOracle 1 (1/2) 3 = .ok (demoQ, demoPol)
      ∧ demoQ St.v Act.a = 0 ∧ demoQ St.v Act.b = 0 :=
  ⟨⟨fun _ _ _ => rfl, demo_qlInner⟩,
    C9_ql_terminal_rows demoM demoOracle (1/2) 3 0 St.u 1 3 qlQ0 demoQ 1
      (fun _ _ _ => rfl) demo_qlInner,
    demo_q_learning, rfl, rfl⟩

/-- Claim C10: with at least one episode, `q_learning` on a model whose
states are all terminal fails on the start-state draw from the empty
candidate list, returning the `emptyStartStates` error and no Q-table or
policy; and whenever some listed state is non-terminal, that draw never
fails — the run never returns `emptyStartStates`. -/
theorem C10_ql_start_sampling {S A : Type} [DecidableEq S] [DecidableEq A]
    (m : MDP S A) (o : Oracle) (alpha : ℚ) (episodes innerFuel : Nat)
    (hep : 1 ≤ episodes) :
    ((∀ s ∈ m.states, m.terminal s = true) →
        q_learning m o episodes alpha innerFuel = .error .emptyStartStates)
      ∧ ((∃ s ∈ m.states, m.terminal s = false) →
          q_learning m o episodes alpha innerFuel ≠ .error .emptyStartStates) := by
  constructor
  · intro hall
    exact q_learning_all_terminal m o episodes alpha innerFuel hep hall
  · intro ⟨s, hs, hterm⟩ hcontra
    rw [q_learning] at hcontra
    split at hcontra
    · rename_i e hq
      have he : e = QlErr.emptyStartStates := (Except.error.injEq _ _).mp hcontra
      rw [he] at hq
      have hne : m.states.filter (fun x => !m.terminal x) ≠ [] := by
        intro hnil
        have hmem : s ∈ m.states.filter (fun x => !m.terminal x) := by
          rw [List.mem_filter]
          refine ⟨hs, ?_⟩
          rw [hterm]
          rfl
        rw [hnil] at hmem
        cases hmem
      exact qlEpisodes_ne_emptyStart m o alpha innerFuel hne episodes 0 0 qlQ0 hq
    · cases hcontra

/-- Claim C10, witness: one episode on the all-terminal model fails with
`emptyStartStates`; one episode on `demoM`, which has the non-terminal
state `u`, does not. -/
theorem C10_ql_start_sampling_witness :
    (1 ≤ 1 ∧ (∀ s ∈ allTermM.states, allTermM.terminal s = true)
        ∧ (∃ s ∈ demoM.states, demoM.terminal s = false))
      ∧ q_learning allTermM demoOracle 1 (1/2) 3 = .error .emptyStartStates
      ∧ q_learning demoM demoOracle 1 (1/2) 3 ≠ .error .emptyStartStates :=
  ⟨⟨by norm_num, by intro s _; rfl, ⟨St.u, by decide, rfl⟩⟩,
    (C10_ql_start_sampling allTermM demoOracle (1/2) 1 3 (by norm_num)).1
      (by intro s _; rfl),
    (C10_ql_start_sampling demoM demoOracle (1/2) 1 3 (by norm_num)).2
      ⟨St.u, by decide, rfl⟩⟩

/-- Claim C7 amended, witness: on `demoM` the loop with fuel 2 returns after
its first round, which is stable, matching the characterisation at `n = 0`. -/
theorem C7_amended_witness :
    (piLoop demoM 1 3 2 demoPi = .ok (demoV, demoPi) ↔
        ∃ n < 2, (∀ k < n, ∃ q, piSeq demoM 1 3 k demoPi = .ok q ∧ q.2.2 = false)
          ∧ piSeq demoM 1 3 n demoPi
              = .ok (((demoV, demoPi) : (St → ℚ) × (St → Act)).1, (demoV, demoPi).2, true))
      ∧ piLoop demoM 1 3 2 demoPi = .ok (demoV, demoPi)
      ∧ piSeq demoM 1 3 0 demoPi = .ok (demoV, demoPi, true) :=
  ⟨C7_amended demoM 1 3 2 demoPi (demoV, demoPi), demo_piLoop,
    by rw [piSeq]; exact demo_piRound⟩
